import Mathlib

/-!
Verification of the cookiecutter generation engine
(`src/cookiecutter/generate.py`) against its natural-language
specification.

The Python module is shallowly embedded as executable Lean functions:

* Python dictionaries (contexts) become association lists over an
  inductive value type `Val`; the back-compatibility self-assignment
  `context['cookiecutter'] = context` is represented by the `Val.selfRef`
  constructor, which denotes a reference to the enclosing top-level
  mapping (Python's in-place aliasing made explicit).
* External collaborators that are not part of the repository
  (the Jinja templating capability, `fnmatch`, `os.path` (POSIX),
  `binaryornot`, the hook runner, `find_template`,
  `make_sure_path_exists`, `load_context_from_file`) are modelled from
  the specification's description of their interfaces; each such
  definition carries a doc comment saying so.
* Filesystem effects are reified as a trace of `Op` values in the order
  the Python code performs them; reading the template tree is replaced
  by an explicit `Entry` tree argument.
* Functions whose Python recursion is not structural take an explicit
  fuel argument so that they stay kernel-computable; the fuel chosen by
  the wrappers is always sufficient, which the lemmas below prove.
-/

/-! ## Python-style values and dictionaries -/

/-- A Python value as it occurs in a cookiecutter context: a string, a
list, a nested dict, or (after the compatibility shim) a reference to
the enclosing top-level context itself. -/
inductive Val where
  | vstr : String → Val
  | vlist : List Val → Val
  | vdict : List (String × Val) → Val
  | selfRef : Val

/-- A cookiecutter context: a Python dict from strings to values,
modelled as an insertion-ordered association list with unique keys. -/
abbrev Ctx := List (String × Val)

/-- Python `d[key]` on a dict: the value stored at `key`, if present. -/
def lookupKey : List (String × Val) → String → Option Val
  | [], _ => none
  | (k, v) :: rest, key => if k = key then some v else lookupKey rest key

/-- Python `d[key] = v`: replace the value at an existing key in place,
otherwise append the new binding at the end (insertion order). -/
def setKey : List (String × Val) → String → Val → List (String × Val)
  | [], key, v => [(key, v)]
  | (k, w) :: rest, key, v =>
    if k = key then (key, v) :: rest else (k, w) :: setKey rest key v

/-- Python `d.update(u)`: assign every binding of `u` into `d`, in
order. -/
def pyUpdate (d u : List (String × Val)) : List (String × Val) :=
  u.foldl (fun acc kv => setKey acc kv.1 kv.2) d

/-- Python `key in d`. -/
def hasKey (d : List (String × Val)) (key : String) : Bool :=
  (lookupKey d key).isSome

/-! ## Glob matching

Modelled from the spec: the Render Policy Matcher delegates to the
standard `fnmatch` library, which is not part of this repository.  The
spec describes it as glob-style matching with `*`, `?` and character
classes against the full string (POSIX, case-preserving).  `globMatchF`
follows `fnmatch.translate`'s semantics: `*` matches any sequence of
characters (including path separators), `?` any single character,
`[seq]` / `[!seq]` character classes with ranges, and an unterminated
`[` is a literal character. -/

/-- Split a character list at the first `]`, if any. -/
def findRB : List Char → Option (List Char × List Char)
  | [] => none
  | c :: rest =>
    if c = ']' then some ([], rest)
    else (findRB rest).map (fun p => (c :: p.1, p.2))

/-- Parse a bracket expression given the characters following `[`:
returns (negated, class contents, remaining pattern), or `none` when no
closing `]` exists.  As in `fnmatch.translate`, a leading `!` negates
and a `]` right after it belongs to the class contents. -/
def splitBracket (l : List Char) : Option (Bool × List Char × List Char) :=
  let (neg, l1) := match l with
    | '!' :: rest => (true, rest)
    | _ => (false, l)
  match l1 with
  | ']' :: rest => (findRB rest).map (fun p => (neg, ']' :: p.1, p.2))
  | _ => (findRB l1).map (fun p => (neg, p.1, p.2))

/-- Membership of a character in a bracket class, with `a-b` ranges. -/
def memBracket (c : Char) : List Char → Bool
  | [] => false
  | a :: '-' :: b :: rest => (a ≤ c && c ≤ b) || memBracket c rest
  | a :: rest => (c == a) || memBracket c rest

/-- Glob matcher: does pattern `p` match the whole string `s`?  The
`fuel` argument only serves to make the recursion structural; any fuel
exceeding `p.length + s.length` gives the true answer. -/
def globMatchF : Nat → List Char → List Char → Bool
  | 0, _, _ => false
  | _ + 1, [], s => s.isEmpty
  | fuel + 1, c :: p', s =>
    if c = '*' then
      globMatchF fuel p' s ||
        (match s with
         | [] => false
         | _ :: s' => globMatchF fuel (c :: p') s')
    else if c = '?' then
      match s with
      | [] => false
      | _ :: s' => globMatchF fuel p' s'
    else if c = '[' then
      match splitBracket p' with
      | some (neg, content, p'') =>
        match s with
        | [] => false
        | d :: s' => ((memBracket d content) != neg) && globMatchF fuel p'' s'
      | none =>
        match s with
        | [] => false
        | d :: s' => (d == c) && globMatchF fuel p' s'
    else
      match s with
      | [] => false
      | d :: s' => (d == c) && globMatchF fuel p' s'

/-- Modelled from the spec: `fnmatch.fnmatch(name, pat)` on POSIX
(where `os.path.normcase` is the identity). -/
def fnmatchB (name pat : String) : Bool :=
  globMatchF (pat.data.length + name.data.length + 1) pat.data name.data

/-! ## The render policy matcher (`copy_without_render`, lines 31-47) -/

/-- Errors a generation run can raise.  `templateSyntax` is the
structured syntax error the templating capability raises on malformed
template syntax, e.g. an open delimiter pair with no matching close
delimiter (spec sections 4.3, 6 and 8); it propagates uncaught. -/
inductive Err where
  | nonTemplatedInputDir
  | typeError
  | hookFailed
  | templateSyntax
deriving DecidableEq

/-- The Python loop `for dont_render in items: if fnmatch(path, dont_render):
return True`, iterating over arbitrary values: a non-string pattern makes
`fnmatch` raise a `TypeError` when it is reached. -/
def cwrLoopV (path : String) : List Val → Except Err Bool
  | [] => .ok false
  | .vstr p :: rest => if fnmatchB path p then .ok true else cwrLoopV path rest
  | _ :: _ => .error .typeError

/-- Python subscripting `v['_copy_without_render']`: only dicts (and the
self-referential context) support string keys; other values raise
`TypeError`. -/
def asNamespace (ctx : Ctx) : Val → Option (List (String × Val))
  | .vdict d => some d
  | .selfRef => some ctx
  | _ => none

/-- Python iteration over the `_copy_without_render` value: a list
yields its elements, a string its characters, a dict its keys, and the
self-referential context its keys. -/
def patternItems (ctx : Ctx) : Val → List Val
  | .vstr s => s.data.map (fun c => .vstr (String.mk [c]))
  | .vlist l => l
  | .vdict d => d.map (fun kv => Val.vstr kv.1)
  | .selfRef => ctx.map (fun kv => Val.vstr kv.1)

/-- `copy_without_render(path, context)` (generate.py lines 31-47):
returns True if `path` matches some pattern in the
`context['cookiecutter']['_copy_without_render']` setting; a `KeyError`
from a missing key is caught and turned into False. -/
def copy_without_render (path : String) (ctx : Ctx) : Except Err Bool :=
  match lookupKey ctx "cookiecutter" with
  | none => .ok false
  | some ns =>
    match asNamespace ctx ns with
    | none => .error .typeError
    | some d =>
      match lookupKey d "_copy_without_render" with
      | none => .ok false
      | some v => cwrLoopV path (patternItems ctx v)

/-- The Boolean decision of `copy_without_render` on contexts where it
does not raise. -/
def cwrB (path : String) (ctx : Ctx) : Bool :=
  match copy_without_render path ctx with
  | .ok b => b
  | .error _ => false

/-- Shape check on a context guaranteeing that `copy_without_render`
never raises: the `_copy_without_render` setting, if reachable, is a
proper sequence of strings. -/
def ctxCwrOk (ctx : Ctx) : Bool :=
  match lookupKey ctx "cookiecutter" with
  | none => true
  | some ns =>
    match asNamespace ctx ns with
    | none => false
    | some d =>
      match lookupKey d "_copy_without_render" with
      | none => true
      | some v => (patternItems ctx v).all (fun x => match x with
          | .vstr _ => true
          | _ => false)

/-! ## POSIX path operations

Modelled from the spec: the core manipulates paths through `os.path`
(`join`, `normpath`, `abspath`, separators normalized), which is not
part of this repository.  The definitions below follow `posixpath`. -/

/-- Split a character list on `/` (like `str.split('/')`). -/
def splitSlash : List Char → List (List Char)
  | [] => [[]]
  | c :: rest =>
    if c = '/' then [] :: splitSlash rest
    else
      match splitSlash rest with
      | h :: t => (c :: h) :: t
      | [] => [[c]]

/-- Join character-list components with `/` (like `'/'.join`). -/
def interS : List (List Char) → List Char
  | [] => []
  | [p] => p
  | p :: rest => p ++ '/' :: interS rest

/-- One step of `posixpath.normpath`'s component scan. -/
def npStep (slashes : Nat) (acc : List (List Char)) (comp : List Char) :
    List (List Char) :=
  if comp = [] ∨ comp = ['.'] then acc
  else if comp ≠ ['.', '.'] ∨ (slashes = 0 ∧ acc = []) ∨
      (acc ≠ [] ∧ acc.getLast? = some ['.', '.']) then acc ++ [comp]
  else if acc ≠ [] then acc.dropLast
  else acc

/-- Number of leading slashes `posixpath.normpath` preserves (POSIX
keeps exactly two leading slashes special). -/
def npSlashes (s : List Char) : Nat :=
  if s.head? = some '/' then
    if (['/', '/'] <+: s) ∧ ¬ (['/', '/', '/'] <+: s) then 2 else 1
  else 0

/-- `posixpath.normpath` on characters. -/
def normpathC (s : List Char) : List Char :=
  if s = [] then ['.']
  else
    let r := List.replicate (npSlashes s) '/' ++
      interS ((splitSlash s).foldl (npStep (npSlashes s)) [])
    if r = [] then ['.'] else r

/-- `os.path.normpath` (POSIX). -/
def normpathStr (s : String) : String := String.mk (normpathC s.data)

/-- `os.path.join(a, b)` (POSIX): an absolute second argument discards
the first; otherwise the parts are joined with a single `/`. -/
def pjoin (a b : String) : String :=
  if b.data.head? = some '/' then b
  else if a.data = [] ∨ a.data.getLast? = some '/' then String.mk (a.data ++ b.data)
  else String.mk (a.data ++ '/' :: b.data)

/-- `os.path.isabs` (POSIX). -/
def posixIsAbs (s : String) : Bool := s.data.head? = some '/'

/-- `os.path.abspath` (POSIX): join onto the current working directory
and normalize. -/
def posixAbspath (cwd p : String) : String := normpathStr (pjoin cwd p)

/-- The `root` string `os.walk` hands to the loop body after descending
from `'.'` through the directory names `ps` (joined, not normalized). -/
def rootOf (ps : List String) : String := ps.foldl pjoin "."

/-- Characters of the `/`-joined relative path of a tree node. -/
def pathD (ps : List String) : List Char := interS (ps.map String.data)

/-- The `/`-joined relative path of a tree node. -/
def pathStr (ps : List String) : String := String.mk (pathD ps)

/-- A well-formed filesystem name: nonempty, no separator, and not one
of the special entries `.` / `..`. -/
def wfName (s : String) : Prop :=
  s.data ≠ [] ∧ '/' ∉ s.data ∧ s.data ≠ ['.'] ∧ s.data ≠ ['.', '.']

instance (s : String) : Decidable (wfName s) := by unfold wfName; infer_instance

/-! ## Substrings and the modelled templating capability -/

/-- Python's `sub in s` on characters. -/
def isSubchars (needle : List Char) : List Char → Bool
  | [] => needle.isEmpty
  | c :: rest => needle.isPrefixOf (c :: rest) || isSubchars needle rest

/-- Python's substring test `sub in s`. -/
def hasSub (s sub : String) : Bool := isSubchars sub.data s.data

/-- Split a character list on `.` (for dotted template names). -/
def splitDot : List Char → List (List Char)
  | [] => [[]]
  | c :: rest =>
    if c = '.' then [] :: splitDot rest
    else
      match splitDot rest with
      | h :: t => (c :: h) :: t
      | [] => [[c]]

/-- Strip spaces from both ends. -/
def trimSpaces (l : List Char) : List Char :=
  ((l.dropWhile (· = ' ')).reverse.dropWhile (· = ' ')).reverse

/-- Follow a dotted variable path through the context; `selfRef` jumps
back to the top-level mapping (the self-referential dict). -/
def resolvePath (top : Ctx) : Ctx → List String → Option Val
  | _, [] => none
  | d, k :: rest =>
    match lookupKey d k with
    | none => none
    | some v =>
      match rest with
      | [] => some v
      | _ :: _ =>
        match v with
        | .vdict d' => resolvePath top d' rest
        | .selfRef => resolvePath top top rest
        | _ => none

/-- Render one expression body: resolve the dotted name against the
context; a string value renders as itself, anything else (including an
undefined name) as the empty string. -/
def resolveExprStr (ctx : Ctx) (expr : List Char) : List Char :=
  match resolvePath ctx ctx ((splitDot (trimSpaces expr)).map
      (fun p => String.mk (trimSpaces p))) with
  | some (.vstr s) => s.data
  | _ => []

/-- Split at the first close delimiter, returning the expression body
and the remaining input; `none` when the input contains no close
delimiter pair. -/
def findCloseE : List Char → Option (List Char × List Char)
  | [] => none
  | [_] => none
  | c :: d :: rest =>
    if c = '\x7d' ∧ d = '\x7d' then some ([], rest)
    else (findCloseE (d :: rest)).map (fun p => (c :: p.1, p.2))

/-- Modelled from the spec: the external templating capability (Jinja),
which is not part of this repository.  A template expression is
an open delimiter pair, a dotted name, and a close delimiter pair; it
renders to the context value's string form (empty for undefined names),
and all other text — including a stray close delimiter pair and a
trailing newline — is reproduced verbatim.  An open delimiter pair with
no matching close delimiter is malformed syntax: the scan raises a
structured syntax error, which propagates to the caller (spec sections
4.3, 6 and 8).  `fuel` makes the recursion structural; `renderTemplate`
always supplies enough. -/
def renderCharsE (ctx : Ctx) : Nat → List Char → Except Err (List Char)
  | 0, _ => .ok []
  | _ + 1, [] => .ok []
  | _ + 1, [c] => .ok [c]
  | fuel + 1, c :: d :: rest =>
    if c = '\x7b' ∧ d = '\x7b' then
      match findCloseE rest with
      | none => .error .templateSyntax
      | some p =>
        match renderCharsE ctx fuel p.2 with
        | .error e => .error e
        | .ok tail => .ok (resolveExprStr ctx p.1 ++ tail)
    else
      match renderCharsE ctx fuel (d :: rest) with
      | .error e => .error e
      | .ok tail => .ok (c :: tail)

/-- Modelled from the spec: render a template string against a context.
A template whose open delimiter pair is never closed raises a template
syntax error — as Jinja does already at `Template(...)` construction —
instead of producing output. -/
def renderTemplate (ctx : Ctx) (s : String) : Except Err String :=
  match renderCharsE ctx (s.data.length + 1) s.data with
  | .error e => .error e
  | .ok l => .ok (String.mk l)

/-- The type of the templating collaborator: a renderer returning
either the rendered string or a propagating error.  Most theorems hold
for an arbitrary renderer, which expresses that the relevant file
contents are never passed through it. -/
abbrev RenderFn := Ctx → String → Except Err String

/-- Does a string contain no open template delimiter? -/
def noTemplateExpr (s : String) : Bool := !(isSubchars ['\x7b', '\x7b'] s.data)

/-! ## Contexts: generation and the compatibility shim -/

/-- `generate_context(context_file, default_context, extra_context)`
(generate.py lines 50-72).  Modelled from the spec for the collaborator
`load_context_from_file` (parsers.py is not among the core sources):
the parsed template declaration is taken directly as the `ccontext`
argument.  The optional override layers are applied with Python
`dict.update`; Python's `if default_context:` truthiness also skips an
empty dict. -/
def generate_context (ccontext : Ctx)
    (default_context extra_context : Option Ctx) : Ctx :=
  let c1 := match default_context with
    | some d => if d.isEmpty then ccontext else pyUpdate ccontext d
    | none => ccontext
  match extra_context with
  | some e => if e.isEmpty then c1 else pyUpdate c1 e
  | none => c1

/-- The compatibility shim in `generate_files` (lines 178-179):
`if 'cookiecutter' not in context: context['cookiecutter'] = context`.
The in-place self-assignment is represented by a `selfRef` binding
denoting the mapping itself. -/
def wrapContext (ctx : Ctx) : Ctx :=
  if hasKey ctx "cookiecutter" then ctx
  else setKey ctx "cookiecutter" Val.selfRef

/-- Follow the `cookiecutter` key `n` times from the top mapping,
dereferencing through the self-reference: witnesses that the wrapped
context is nested to arbitrary depth. -/
def chaseNamespace (top : Ctx) : Nat → Option Ctx
  | 0 => some top
  | n + 1 =>
    match chaseNamespace top n with
    | none => none
    | some d =>
      match lookupKey d "cookiecutter" with
      | none => none
      | some v => asNamespace top v

/-! ## The template tree, the effect trace, and the generator -/

/-- A node of the template tree as the walker sees it: a file carries
its byte contents, the binary detector's verdict (modelled from the
spec: `binaryornot` classifies by content inspection, outside this
repository), and its permission bits; a directory carries its
children. -/
inductive Entry where
  | file (name contents : String) (isBin : Bool) (mode : Nat)
  | dir (name : String) (children : List Entry)

/-- The name of a tree entry. -/
def entryName : Entry → String
  | .file n _ _ _ => n
  | .dir n _ => n

/-- One filesystem effect, in the order the Python code performs them.
`copyFile` and `writeFile` carry the source path, the destination path
and the exact bytes that end up in the destination file. -/
inductive Op where
  | createDir (path : String)
  | hook (name : String)
  | copyTree (src dst : String) (subtree : List Entry)
  | copyFile (src dst contents : String)
  | writeFile (src dst contents : String)
  | copyMode (src dst : String) (mode : Nat)

/-- Result of walking one template level: the effect trace, the list of
path strings tested against the copy-without-render policy, the
directories that matched (with their subtrees), and the error that
aborted the walk, if any. -/
structure WalkRes where
  ops : List Op
  tested : List String
  copyHits : List (String × List Entry)
  err : Option Err

/-- Modelled from the spec: `make_sure_path_exists` (utils.py, outside
the core sources) creates every missing intermediate directory and
treats a pre-existing directory as success, not an error.  The
filesystem is abstracted as the list of existing directories. -/
def make_sure_path_exists (fs : List String) (p : String) : List String :=
  if p ∈ fs then fs else p :: fs

/-- `render_and_create_dir(dirname, context, output_dir)` (generate.py
lines 134-150): render the name — a syntax error raised by
`Template(dirname)` at line 140 propagates before anything is created —
then join it under `output_dir`, normalize, create it (returned as a
`createDir` effect), and return the path. -/
def render_and_create_dir (R : RenderFn) (ctx : Ctx)
    (dirname output_dir : String) : Except Err (List Op × String) :=
  match R ctx dirname with
  | .error e => .error e
  | .ok rendered =>
    let dir_to_create := normpathStr (pjoin output_dir rendered)
    .ok ([Op.createDir dir_to_create], dir_to_create)

/-- `ensure_dir_is_templated(dirname)` (generate.py lines 153-160): the
name must contain both an open and a close delimiter pair as
substrings, else `NonTemplatedInputDirException` is raised. -/
def ensure_dir_is_templated (dirname : String) : Except Err Bool :=
  if hasSub dirname "\x7b\x7b" && hasSub dirname "\x7d\x7d" then .ok true
  else .error .nonTemplatedInputDir

/-- The claim's reading of the template-root invariant, stated from the
spec's words for comparison with `ensure_dir_is_templated`: some open
delimiter pair is followed, later in the name, by a close delimiter
pair. -/
def hasOpenThenClose : List Char → Bool
  | [] => false
  | [_] => false
  | c :: d :: rest =>
    if c = '\x7b' ∧ d = '\x7b' then isSubchars ['\x7d', '\x7d'] rest
    else hasOpenThenClose (d :: rest)

/-- `generate_file(project_dir, infile, context, env)` (generate.py
lines 75-131).  The file's contents, binary classification and
permission bits stand in for the filesystem reads; the ops record what
is written.  The path is rendered first (line 100; a syntax error there
propagates with nothing written); then a binary file's bytes are copied
verbatim, while a text file is rendered (`env.get_template` loads the
same bytes the walker saw, and a syntax error in them is re-raised,
lines 116-122); the permission bits are copied in both branches. -/
def generate_file (R : RenderFn) (project_dir infile : String)
    (contents : String) (isBin : Bool) (mode : Nat) (ctx : Ctx) :
    Except Err (List Op) :=
  match R ctx infile with
  | .error e => .error e
  | .ok outrel =>
    let outfile := pjoin project_dir outrel
    if isBin then
      .ok [Op.copyFile infile outfile contents,
        Op.copyMode infile outfile mode]
    else
      match R ctx contents with
      | .error e => .error e
      | .ok rendered =>
        .ok [Op.writeFile infile outfile rendered,
          Op.copyMode infile outfile mode]

/-- The partition loop over child directories (generate.py lines
204-215): test each full path against the policy, splitting into
`copy_dirs` and `render_dirs`; also returns the tested paths.  An
uncaught exception from the matcher aborts the loop. -/
def partitionDirs (ctx : Ctx) (root : String) :
    List (String × List Entry) →
    List String × Except Err (List (String × List Entry) × List (String × List Entry))
  | [] => ([], .ok ([], []))
  | (n, kids) :: rest =>
    let d_ := normpathStr (pjoin root n)
    match copy_without_render d_ ctx with
    | .error e => ([d_], .error e)
    | .ok b =>
      let r := partitionDirs ctx root rest
      (d_ :: r.1, r.2.map (fun p =>
        if b then ((n, kids) :: p.1, p.2) else (p.1, (n, kids) :: p.2)))

/-- The file loop (generate.py lines 233-247): a file matching the
policy has its path rendered (a syntax error there aborts) and its
bytes and mode copied; otherwise `generate_file` runs, and an error it
raises aborts the loop.  Ops of files processed before an abort
remain; the aborting file was already tested. -/
def processFiles (R : RenderFn) (ctx : Ctx) (project_dir root : String) :
    List (String × String × Bool × Nat) → List Op × List String × Option Err
  | [] => ([], [], none)
  | (name, contents, isBin, mode) :: rest =>
    let infile := normpathStr (pjoin root name)
    match copy_without_render infile ctx with
    | .error e => ([], [infile], some e)
    | .ok true =>
      match R ctx infile with
      | .error e => ([], [infile], some e)
      | .ok outrel =>
        let outfile := pjoin project_dir outrel
        let r := processFiles R ctx project_dir root rest
        ([Op.copyFile infile outfile contents, Op.copyMode infile outfile mode]
          ++ r.1, infile :: r.2.1, r.2.2)
    | .ok false =>
      match generate_file R project_dir infile contents isBin mode ctx with
      | .error e => ([], [infile], some e)
      | .ok ops =>
        let r := processFiles R ctx project_dir root rest
        (ops ++ r.1, infile :: r.2.1, r.2.2)

/-- The directory children of a level, in order. -/
def dirsOf (es : List Entry) : List (String × List Entry) :=
  es.filterMap (fun e => match e with
    | .dir n kids => some (n, kids)
    | _ => none)

/-- The file children of a level, in order. -/
def filesOf (es : List Entry) : List (String × String × Bool × Nat) :=
  es.filterMap (fun e => match e with
    | .file n c b m => some (n, c, b, m)
    | _ => none)

/-- Size of a template forest, used only to choose sufficient fuel for
the walker (the nested recursion is justified by the well-founded
`sizeOf` measure). -/
def forestSize : List Entry → Nat
  | [] => 0
  | (.file ..) :: rest => 1 + forestSize rest
  | (.dir _ kids) :: rest => 1 + forestSize kids + forestSize rest

/-- Sequence the walks of the render-eligible subdirectories: the first
error stops the remaining walks (the Python exception unwinds). -/
def seqRes : List WalkRes → WalkRes
  | [] => ⟨[], [], [], none⟩
  | r :: rest =>
    match r.err with
    | some _ => r
    | none =>
      let r2 := seqRes rest
      ⟨r.ops ++ r2.ops, r.tested ++ r2.tested, r.copyHits ++ r2.copyHits, r2.err⟩

/-- The directory-creation loop over the render-eligible children
(generate.py lines 229-231): each name is joined under the project
directory and handed to `render_and_create_dir`; an error raised there
(such as a syntax error in the name) aborts the loop, keeping the
creations made so far. -/
def mkdirLoop (R : RenderFn) (ctx : Ctx) (output_dir base : String) :
    List (String × List Entry) → List Op × Option Err
  | [] => ([], none)
  | (n, _) :: rest =>
    match render_and_create_dir R ctx (pjoin base n) output_dir with
    | .error e => ([], some e)
    | .ok rcd =>
      let r := mkdirLoop R ctx output_dir base rest
      (rcd.1 ++ r.1, r.2)

/-- The `os.walk` loop of `generate_files` (generate.py lines 200-247),
one call per directory level, top-down: partition the child directories
by the policy, `copytree` the matching ones without descending, create
the rendered counterparts of the others, process the files, then
recurse into the render-eligible directories in order; an uncaught
exception in any phase aborts the walk, keeping the earlier phases'
effects.  `root` is the string `os.walk` supplies (starting at `'.'`,
extended by `os.path.join`).  `fuel` makes the recursion structural;
any fuel exceeding the tree size gives the true result, and the
wrappers always supply enough. -/
def walkEntriesF (R : RenderFn) (ctx : Ctx) (project_dir output_dir : String) :
    Nat → String → List Entry → WalkRes
  | 0, _, _ => ⟨[], [], [], none⟩
  | fuel + 1, root, entries =>
    let ds := dirsOf entries
    let fs := filesOf entries
    let part := partitionDirs ctx root ds
    match part.2 with
    | .error e => ⟨[], part.1, [], some e⟩
    | .ok (copy_dirs, render_dirs) =>
      let copyOps := copy_dirs.map (fun nk =>
        let indir := normpathStr (pjoin root nk.1)
        Op.copyTree indir (normpathStr (pjoin project_dir indir)) nk.2)
      let hits := copy_dirs.map (fun nk => (normpathStr (pjoin root nk.1), nk.2))
      let mk := mkdirLoop R ctx output_dir (pjoin project_dir root) render_dirs
      match mk.2 with
      | some e => ⟨copyOps ++ mk.1, part.1, hits, some e⟩
      | none =>
        let fileRes := processFiles R ctx project_dir root fs
        match fileRes.2.2 with
        | some e =>
          ⟨copyOps ++ mk.1 ++ fileRes.1, part.1 ++ fileRes.2.1, hits, some e⟩
        | none =>
          let recRes := seqRes (render_dirs.map (fun nk =>
            walkEntriesF R ctx project_dir output_dir fuel (pjoin root nk.1) nk.2))
          ⟨copyOps ++ mk.1 ++ fileRes.1 ++ recRes.ops,
            part.1 ++ fileRes.2.1 ++ recRes.tested,
            hits ++ recRes.copyHits, recRes.err⟩

/-- `generate_files(repo_dir, context, output_dir)` (generate.py lines
163-251).  Modelled collaborators: `find_template`'s result is taken as
the template directory name `templateDirName` plus its tree `tree`; the
hook runner is the predicate `H` saying whether the named hook succeeds
(a hook invocation is recorded as a `hook` effect, and a failing hook
raises); `cwd` stands for the process working directory used by
`os.path.abspath`.  A syntax error raised while rendering the root name
(line 180, inside `render_and_create_dir`) propagates before anything
is created and before any hook runs. -/
def generate_files (R : RenderFn) (H : String → Bool)
    (templateDirName : String) (tree : List Entry)
    (context : Ctx) (output_dir : String) (cwd : String) :
    List Op × Option Err :=
  let unrendered_dir := templateDirName
  match ensure_dir_is_templated unrendered_dir with
  | .error e => ([], some e)
  | .ok _ =>
    let ctx2 := wrapContext context
    match render_and_create_dir R ctx2 unrendered_dir output_dir with
    | .error e => ([], some e)
    | .ok rcd =>
      let project_dir := posixAbspath cwd rcd.2
      match H "pre_gen_project" with
      | false => (rcd.1 ++ [Op.hook "pre_gen_project"], some .hookFailed)
      | true =>
        let r := walkEntriesF R ctx2 project_dir output_dir
          (forestSize tree + 1) "." tree
        match r.err with
        | some e => (rcd.1 ++ [Op.hook "pre_gen_project"] ++ r.ops, some e)
        | none =>
          match H "post_gen_project" with
          | false =>
            (rcd.1 ++ [Op.hook "pre_gen_project"] ++ r.ops ++
              [Op.hook "post_gen_project"], some .hookFailed)
          | true =>
            (rcd.1 ++ [Op.hook "pre_gen_project"] ++ r.ops ++
              [Op.hook "post_gen_project"], none)

/-- Does an effect generate file content in the output tree? -/
def isFileOp : Op → Bool
  | .copyTree .. => true
  | .copyFile .. => true
  | .writeFile .. => true
  | _ => false

/-! ## Walk machinery -/

/-- Well-formed template forest: names at each level are distinct (as
in a real directory listing) and every name is a plain filesystem
name. -/
inductive WfForest : List Entry → Prop where
  | mk (es : List Entry) :
      (es.map entryName).Nodup →
      (∀ e ∈ es, wfName (entryName e)) →
      (∀ n kids, Entry.dir n kids ∈ es → WfForest kids) →
      WfForest es

/-- Path `t` lies strictly inside directory path `q`. -/
def strictlyInside (q t : String) : Prop := (q.data ++ ['/']) <+: t.data

/-- The tested string is the relative path of some tree position below
`ps`. -/
def SupportsAt (ps : List String) (t : String) : Prop :=
  ∃ qs, qs ≠ [] ∧ (∀ x ∈ qs, wfName x) ∧ t = pathStr (ps ++ qs)

/-- Example context used by the walker witnesses: `cdir` is tagged
copy-without-render. -/
def exCtx : Ctx := [("cookiecutter", Val.vdict
  [("_copy_without_render", Val.vlist [Val.vstr "cdir"])])]

/-- Example template tree used by the walker witnesses. -/
def exTree : List Entry :=
  [Entry.dir "cdir" [Entry.file "inner.txt" "x" false 1], Entry.dir "other" []]

/-! ## Theorems -/

theorem cwrLoopV_ok (path : String) :
    ∀ items : List Val, (∀ v ∈ items, ∃ s, v = Val.vstr s) →
      cwrLoopV path items = .ok (items.any (fun v => match v with
        | .vstr p => fnmatchB path p
        | _ => false)) := by
  intro items
  induction items with
  | nil => intro _; rfl
  | cons v rest ih =>
    intro h
    obtain ⟨s, rfl⟩ := h v (List.mem_cons_self ..)
    by_cases hm : fnmatchB path s
    · simp [cwrLoopV, hm, List.any_cons]
    · simp [cwrLoopV, hm, List.any_cons]
      exact ih (fun w hw => h w (List.mem_cons_of_mem _ hw))

/-- On shape-correct contexts, `copy_without_render` returns `.ok` of
its Boolean decision. -/
theorem copy_without_render_ok {ctx : Ctx} (h : ctxCwrOk ctx = true)
    (path : String) : copy_without_render path ctx = .ok (cwrB path ctx) := by
  unfold ctxCwrOk at h
  cases hns : lookupKey ctx "cookiecutter" with
  | none => simp [copy_without_render, cwrB, hns]
  | some ns =>
    simp only [hns] at h
    cases hd : asNamespace ctx ns with
    | none => simp only [hd] at h; exact absurd h Bool.false_ne_true
    | some d =>
      simp only [hd] at h
      cases hv : lookupKey d "_copy_without_render" with
      | none => simp [copy_without_render, cwrB, hns, hd, hv]
      | some v =>
        simp only [hv] at h
        have hall : ∀ w ∈ patternItems ctx v, ∃ s, w = Val.vstr s := by
          intro w hw
          have := List.all_eq_true.mp h w hw
          cases w with
          | vstr s => exact ⟨s, rfl⟩
          | vlist _ => simp at this
          | vdict _ => simp at this
          | selfRef => simp at this
        simp [copy_without_render, cwrB, hns, hd, hv, cwrLoopV_ok path _ hall]

/-! ## Path lemmas -/

theorem splitSlash_ne_nil : ∀ l : List Char, splitSlash l ≠ [] := by
  intro l
  induction l with
  | nil => simp [splitSlash]
  | cons c rest ih =>
    simp only [splitSlash]
    by_cases h : c = '/'
    · simp [h]
    · simp only [if_neg h]
      rcases hs : splitSlash rest with _ | ⟨a, t⟩ <;> simp

theorem splitSlash_single : ∀ {p : List Char}, '/' ∉ p → splitSlash p = [p] := by
  intro p
  induction p with
  | nil => intro _; rfl
  | cons c rest ih =>
    intro h
    rw [List.mem_cons, not_or] at h
    obtain ⟨hc, hr⟩ := h
    rw [splitSlash, if_neg (fun hh => hc hh.symm), ih hr]

theorem splitSlash_append : ∀ {p : List Char}, '/' ∉ p → ∀ t : List Char,
    splitSlash (p ++ '/' :: t) = p :: splitSlash t := by
  intro p
  induction p with
  | nil =>
    intro _ t
    simp [splitSlash]
  | cons c rest ih =>
    intro h t
    rw [List.mem_cons, not_or] at h
    obtain ⟨hc, hr⟩ := h
    rw [List.cons_append, splitSlash, if_neg (fun hh => hc hh.symm), ih hr t]

theorem interS_cons_of_ne_nil {x : List Char} {xs : List (List Char)}
    (h : xs ≠ []) : interS (x :: xs) = x ++ '/' :: interS xs := by
  cases xs with
  | nil => exact absurd rfl h
  | cons y ys => rfl

theorem interS_append {as bs : List (List Char)} (ha : as ≠ []) (hb : bs ≠ []) :
    interS (as ++ bs) = interS as ++ '/' :: interS bs := by
  induction as with
  | nil => exact absurd rfl ha
  | cons a as' ih =>
    cases as' with
    | nil =>
      rw [List.singleton_append, interS_cons_of_ne_nil hb]
      rfl
    | cons a2 as'' =>
      rw [List.cons_append, interS_cons_of_ne_nil (by simp),
        interS_cons_of_ne_nil (by simp), ih (by simp)]
      simp

theorem splitSlash_interS : ∀ parts : List (List Char), parts ≠ [] →
    (∀ p ∈ parts, '/' ∉ p) → splitSlash (interS parts) = parts := by
  intro parts
  induction parts with
  | nil => intro h; exact absurd rfl h
  | cons p rest ih =>
    intro _ hsf
    cases rest with
    | nil => exact splitSlash_single (hsf p (List.mem_cons_self ..))
    | cons q rest' =>
      rw [interS_cons_of_ne_nil (by simp),
        splitSlash_append (hsf p (List.mem_cons_self ..)),
        ih (by simp) (fun x hx => hsf x (List.mem_cons_of_mem _ hx))]

theorem interS_ne_nil {x : List Char} (hx : x ≠ []) (xs : List (List Char)) :
    interS (x :: xs) ≠ [] := by
  cases xs with
  | nil => exact hx
  | cons y ys => simp [interS_cons_of_ne_nil, hx]

theorem foldl_npStep (sl : Nat) : ∀ (comps acc : List (List Char)),
    (∀ c ∈ comps, c ≠ [] ∧ c ≠ ['.'] ∧ c ≠ ['.', '.']) →
    comps.foldl (npStep sl) acc = acc ++ comps := by
  intro comps
  induction comps with
  | nil => intro acc _; simp
  | cons c rest ih =>
    intro acc h
    obtain ⟨h1, h2, h3⟩ := h c (List.mem_cons_self ..)
    have hstep : npStep sl acc c = acc ++ [c] := by
      rw [npStep, if_neg (by simp [h1, h2]), if_pos (Or.inl h3)]
    rw [List.foldl_cons, hstep,
      ih _ (fun x hx => h x (List.mem_cons_of_mem _ hx)), List.append_assoc,
      List.singleton_append]

theorem pjoin_eq_of_wf {a b : String} (hb1 : b.data ≠ []) (hb2 : '/' ∉ b.data)
    (ha1 : a.data ≠ []) (ha2 : ∀ c, a.data.getLast? = some c → c ≠ '/') :
    pjoin a b = String.mk (a.data ++ '/' :: b.data) := by
  have hh : ¬ b.data.head? = some '/' := by
    cases hb : b.data with
    | nil => exact absurd hb hb1
    | cons c cs =>
      simp only [List.head?_cons, Option.some.injEq]
      intro h
      exact hb2 (h ▸ hb ▸ List.mem_cons_self ..)
  rw [pjoin, if_neg hh, if_neg (by push_neg; exact ⟨ha1, fun h => ha2 '/' h rfl⟩)]

theorem rootOf_inv : ∀ ps : List String, (∀ p ∈ ps, wfName p) →
    (rootOf ps).data = interS (['.'] :: ps.map String.data) ∧
    (rootOf ps).data ≠ [] ∧
    ∀ c, (rootOf ps).data.getLast? = some c → c ≠ '/' := by
  intro ps
  induction ps using List.reverseRecOn with
  | nil =>
    intro _
    refine ⟨rfl, by decide, ?_⟩
    intro c hc
    have : '.' = c := by
      have h2 : (rootOf []).data = ['.'] := rfl
      rw [h2] at hc
      simpa using hc
    simp [← this]
  | append_singleton ps n ih =>
    intro h
    have hps := fun p hp => h p (List.mem_append_left _ hp)
    have hn := h n (List.mem_append_right _ (List.mem_cons_self ..))
    obtain ⟨hd, hne, hlast⟩ := ih hps
    have hro : rootOf (ps ++ [n]) = pjoin (rootOf ps) n := by
      rw [rootOf, rootOf, List.foldl_append, List.foldl_cons, List.foldl_nil]
    obtain ⟨hn1, hn2, _, _⟩ := hn
    rw [hro, pjoin_eq_of_wf hn1 hn2 hne hlast]
    refine ⟨?_, by simp, ?_⟩
    · show (rootOf ps).data ++ '/' :: n.data = _
      rw [hd, List.map_append, List.map_cons, List.map_nil,
        show ('.' :: []) :: (ps.map String.data ++ [n.data]) =
          (('.' :: []) :: ps.map String.data) ++ [n.data] by simp,
        interS_append (by simp) (by simp)]
      rfl
    · intro c hc
      show c ≠ '/'
      have hrw : (rootOf ps).data ++ '/' :: n.data =
          ((rootOf ps).data ++ ['/']) ++ n.data := by simp
      rw [show (String.mk ((rootOf ps).data ++ '/' :: n.data)).data =
        (rootOf ps).data ++ '/' :: n.data from rfl, hrw,
        List.getLast?_append_of_ne_nil _ hn1] at hc
      intro hceq
      exact hn2 (hceq ▸ List.mem_of_mem_getLast? (hc ▸ rfl))

theorem normpath_interS_dot (parts : List (List Char)) (hne : parts ≠ [])
    (hgood : ∀ p ∈ parts, p ≠ [] ∧ '/' ∉ p ∧ p ≠ ['.'] ∧ p ≠ ['.', '.']) :
    normpathC (interS (['.'] :: parts)) = interS parts := by
  obtain ⟨p0, rest, rfl⟩ := List.exists_cons_of_ne_nil hne
  have hs2 : interS (('.' :: []) :: p0 :: rest) =
      '.' :: '/' :: interS (p0 :: rest) := interS_cons_of_ne_nil (by simp)
  have hp0 := hgood p0 (List.mem_cons_self ..)
  have hsl : npSlashes (interS (('.' :: []) :: p0 :: rest)) = 0 := by
    rw [hs2, npSlashes, if_neg (by simp)]
  have hsplit : splitSlash (interS (('.' :: []) :: p0 :: rest)) =
      ('.' :: []) :: p0 :: rest := by
    refine splitSlash_interS _ (by simp) ?_
    intro p hp
    rcases List.mem_cons.mp hp with h | h
    · simp [h]
    · exact ((hgood p h).2).1
  have hfold : (splitSlash (interS (('.' :: []) :: p0 :: rest))).foldl
      (npStep 0) [] = p0 :: rest := by
    rw [hsplit, List.foldl_cons,
      show npStep 0 [] ('.' :: []) = [] from by rw [npStep, if_pos (by simp)],
      foldl_npStep 0 _ _ (fun c hc => ⟨(hgood c hc).1, (hgood c hc).2.2⟩),
      List.nil_append]
  rw [normpathC, if_neg (by rw [hs2]; simp)]
  simp only [hsl, hfold, List.replicate, List.nil_append]
  rw [if_neg (interS_ne_nil hp0.1 rest)]

theorem pathD_cons {x : String} {xs : List String} (h : xs ≠ []) :
    pathD (x :: xs) = x.data ++ '/' :: pathD xs := by
  rw [pathD, List.map_cons, interS_cons_of_ne_nil (by simpa using h)]
  rfl

theorem string_data_inj {a b : String} (h : a.data = b.data) : a = b := by
  cases a; cases b; exact congrArg String.mk h

/-- The string the walker tests for a child named `n` of the level
reached through `ps` is exactly the `/`-joined relative path. -/
theorem normpath_pjoin_rootOf {ps : List String} {n : String}
    (hps : ∀ p ∈ ps, wfName p) (hn : wfName n) :
    normpathStr (pjoin (rootOf ps) n) = pathStr (ps ++ [n]) := by
  obtain ⟨hd, hne, hlast⟩ := rootOf_inv ps hps
  obtain ⟨hn1, hn2, hn3, hn4⟩ := hn
  have hgood : ∀ p ∈ ps.map String.data ++ [n.data],
      p ≠ [] ∧ '/' ∉ p ∧ p ≠ ['.'] ∧ p ≠ ['.', '.'] := by
    intro p hp
    rcases List.mem_append.mp hp with h | h
    · obtain ⟨q, hq, rfl⟩ := List.mem_map.mp h
      exact hps q hq
    · rw [List.mem_singleton.mp h]
      exact ⟨hn1, hn2, hn3, hn4⟩
  have heq : interS (('.' :: []) :: ps.map String.data) ++ '/' :: n.data =
      interS (('.' :: []) :: (ps.map String.data ++ [n.data])) := by
    rw [show (('.' :: []) :: (ps.map String.data ++ [n.data])) =
        ((('.' :: []) :: ps.map String.data) ++ [n.data]) from by simp,
      @interS_append (('.' :: []) :: ps.map String.data) [n.data]
        (by simp) (by simp)]
    rfl
  rw [pjoin_eq_of_wf hn1 hn2 hne hlast, normpathStr]
  show String.mk (normpathC ((rootOf ps).data ++ '/' :: n.data)) = _
  rw [hd, heq, normpath_interS_dot _ (by simp) hgood, pathStr, pathD,
    List.map_append, List.map_cons, List.map_nil]

/-- Two slash-free segments followed by `/` can only align when they
are equal. -/
theorem slashfree_prefix :
    ∀ (a b x y : List Char), '/' ∉ a → '/' ∉ b →
    (a ++ '/' :: x) <+: (b ++ '/' :: y) → a = b ∧ x <+: y := by
  intro a
  induction a with
  | nil =>
    intro b x y _ hb h
    cases b with
    | nil =>
      simp only [List.nil_append] at h
      exact ⟨rfl, (List.cons_prefix_cons.mp h).2⟩
    | cons d b' =>
      exfalso
      simp only [List.nil_append, List.cons_append] at h
      have hd := (List.cons_prefix_cons.mp h).1
      exact hb (by rw [← hd]; exact List.mem_cons_self ..)
  | cons c a' ih =>
    intro b x y ha hb h
    rw [List.mem_cons, not_or] at ha
    obtain ⟨hc, ha'⟩ := ha
    cases b with
    | nil =>
      exfalso
      simp only [List.nil_append, List.cons_append] at h
      have hd := (List.cons_prefix_cons.mp h).1
      exact hc hd.symm
    | cons d b' =>
      rw [List.mem_cons, not_or] at hb
      obtain ⟨hdne, hb'⟩ := hb
      simp only [List.cons_append] at h
      obtain ⟨hcd, htail⟩ := List.cons_prefix_cons.mp h
      obtain ⟨he, hxy⟩ := ih b' x y ha' hb' htail
      exact ⟨by rw [hcd, he], hxy⟩

/-- Path-string prefixes reflect tree positions: if the relative path of
position `as` (plus a slash) is a textual prefix of the relative path of
position `bs`, then `as` is a proper prefix of `bs` as a position. -/
theorem pathD_prefix :
    ∀ (as bs : List String), as ≠ [] → bs ≠ [] →
    (∀ p ∈ as, wfName p) → (∀ p ∈ bs, wfName p) →
    (pathD as ++ ['/']) <+: pathD bs → as <+: bs ∧ as ≠ bs := by
  intro as
  induction as with
  | nil => intro bs h; exact absurd rfl h
  | cons a as' ih =>
    intro bs _ hbs hwa hwb h
    have hwa' := hwa a (List.mem_cons_self ..)
    cases bs with
    | nil => exact absurd rfl hbs
    | cons b bs' =>
      have hwb' := hwb b (List.mem_cons_self ..)
      cases bs' with
      | nil =>
        exfalso
        obtain ⟨t, ht⟩ := h
        have hmem : '/' ∈ pathD [b] := by
          rw [← ht]
          rcases as' with _ | ⟨a2, as''⟩
          · simp [pathD, interS]
          · rw [pathD_cons (by simp)]
            simp
        exact hwb'.2.1 (by simpa [pathD, interS] using hmem)
      | cons b2 bs'' =>
        have hb : pathD (b :: b2 :: bs'') = b.data ++ '/' :: pathD (b2 :: bs'') :=
          pathD_cons (by simp)
        rcases as' with _ | ⟨a2, as''⟩
        · have h2 : (a.data ++ '/' :: ([] : List Char)) <+:
              (b.data ++ '/' :: pathD (b2 :: bs'')) := by
            rw [← hb]
            simpa [pathD, interS] using h
          obtain ⟨hab, _⟩ := slashfree_prefix _ _ _ _ hwa'.2.1 hwb'.2.1 h2
          have hae : a = b := string_data_inj hab
          subst hae
          exact ⟨⟨b2 :: bs'', rfl⟩, by simp⟩
        · have ha2 : pathD (a :: a2 :: as'') =
              a.data ++ '/' :: pathD (a2 :: as'') := pathD_cons (by simp)
          have h2 : (a.data ++ '/' :: (pathD (a2 :: as'') ++ ['/'])) <+:
              (b.data ++ '/' :: pathD (b2 :: bs'')) := by
            rw [← hb]
            have hrw : pathD (a :: a2 :: as'') ++ ['/'] =
                a.data ++ '/' :: (pathD (a2 :: as'') ++ ['/']) := by
              rw [ha2]; simp
            rw [← hrw]
            exact h
          obtain ⟨hab, htail⟩ := slashfree_prefix _ _ _ _ hwa'.2.1 hwb'.2.1 h2
          have hae : a = b := string_data_inj hab
          obtain ⟨hpre, hne⟩ := ih (b2 :: bs'') (by simp) (by simp)
            (fun p hp => hwa p (List.mem_cons_of_mem _ hp))
            (fun p hp => hwb p (List.mem_cons_of_mem _ hp)) htail
          subst hae
          refine ⟨List.cons_prefix_cons.mpr ⟨rfl, hpre⟩, ?_⟩
          intro hcon
          injection hcon with h1 h2
          exact hne h2

theorem findCloseE_snd_le : ∀ l : List Char, ∀ p, findCloseE l = some p →
    p.2.length ≤ l.length := by
  intro l
  induction l with
  | nil => intro p h; simp [findCloseE] at h
  | cons c rest ih =>
    cases rest with
    | nil => intro p h; simp [findCloseE] at h
    | cons d rest' =>
      intro p h
      rw [findCloseE] at h
      by_cases hb : c = '\x7d' ∧ d = '\x7d'
      · rw [if_pos hb] at h
        injection h with h
        rw [← h]
        simp
        omega
      · rw [if_neg hb] at h
        cases ho : findCloseE (d :: rest') with
        | none => rw [ho] at h; simp at h
        | some p' =>
          rw [ho] at h
          simp only [Option.map_some'] at h
          injection h with h
          rw [← h]
          have := ih p' ho
          simp only [List.length_cons] at this ⊢
          omega

/-- When the input contains no close delimiter pair, the scan for one
fails. -/
theorem findCloseE_none : ∀ l : List Char,
    isSubchars ['\x7d', '\x7d'] l = false → findCloseE l = none := by
  intro l
  induction l with
  | nil => intro _; rfl
  | cons c rest ih =>
    intro h
    cases rest with
    | nil => rfl
    | cons d rest' =>
      rw [isSubchars, Bool.or_eq_false_iff] at h
      obtain ⟨hpre, hsub⟩ := h
      have hnb : ¬ (c = '\x7d' ∧ d = '\x7d') := by
        rintro ⟨rfl, rfl⟩
        simp [List.isPrefixOf] at hpre
      rw [findCloseE, if_neg hnb, ih hsub]
      rfl

theorem renderCharsE_id (ctx : Ctx) : ∀ (fuel : Nat) (l : List Char),
    isSubchars ['\x7b', '\x7b'] l = false → l.length < fuel →
    renderCharsE ctx fuel l = .ok l := by
  intro fuel
  induction fuel with
  | zero => intro l _ h; omega
  | succ f ih =>
    intro l hsub hlen
    cases l with
    | nil => rfl
    | cons c rest =>
      cases rest with
      | nil => rfl
      | cons d rest' =>
        rw [isSubchars, Bool.or_eq_false_iff] at hsub
        obtain ⟨hpre, hsub'⟩ := hsub
        have hnb : ¬ (c = '\x7b' ∧ d = '\x7b') := by
          rintro ⟨rfl, rfl⟩
          simp [List.isPrefixOf] at hpre
        rw [renderCharsE, if_neg hnb, ih (d :: rest') hsub' (by
          simp only [List.length_cons] at hlen ⊢
          omega)]

/-- Rendering a string with no template expression reproduces it
byte-for-byte. -/
theorem renderTemplate_id {s : String} (h : noTemplateExpr s = true) (ctx : Ctx) :
    renderTemplate ctx s = .ok s := by
  rw [noTemplateExpr, Bool.not_eq_true'] at h
  rw [renderTemplate, renderCharsE_id ctx _ _ h (by omega)]

/-- A scan that reaches an open delimiter pair with no close delimiter
pair anywhere after it raises the syntax error. -/
theorem renderCharsE_err (ctx : Ctx) : ∀ (fuel : Nat) (l : List Char),
    isSubchars ['\x7b', '\x7b'] l = true → hasOpenThenClose l = false →
    l.length < fuel → renderCharsE ctx fuel l = .error .templateSyntax := by
  intro fuel
  induction fuel with
  | zero => intro l _ _ h; omega
  | succ f ih =>
    intro l hsub hotc hlen
    cases l with
    | nil => simp [isSubchars] at hsub
    | cons c rest =>
      cases rest with
      | nil => simp [isSubchars, List.isPrefixOf] at hsub
      | cons d rest' =>
        by_cases hb : c = '\x7b' ∧ d = '\x7b'
        · have hnc : isSubchars ['\x7d', '\x7d'] rest' = false := by
            rw [hasOpenThenClose, if_pos hb] at hotc
            exact hotc
          rw [renderCharsE, if_pos hb, findCloseE_none rest' hnc]
        · rw [isSubchars, Bool.or_eq_true] at hsub
          have hsub' : isSubchars ['\x7b', '\x7b'] (d :: rest') = true := by
            rcases hsub with h | h
            · exfalso
              simp [List.isPrefixOf] at h
              exact hb ⟨h.1.symm, h.2.symm⟩
            · exact h
          have hotc' : hasOpenThenClose (d :: rest') = false := by
            rw [hasOpenThenClose, if_neg hb] at hotc
            exact hotc
          rw [renderCharsE, if_neg hb, ih (d :: rest') hsub' hotc' (by
            simp only [List.length_cons] at hlen ⊢
            omega)]

/-- A template string containing an open delimiter pair but no open
delimiter followed by a close delimiter raises the syntax error under
every context. -/
theorem renderTemplate_err (ctx : Ctx) (s : String)
    (hsub : hasSub s "\x7b\x7b" = true)
    (hotc : hasOpenThenClose s.data = false) :
    renderTemplate ctx s = .error .templateSyntax := by
  rw [hasSub] at hsub
  rw [renderTemplate, renderCharsE_err ctx _ _ hsub hotc (by omega)]

/-! ## Dictionary lemmas -/

theorem lookupKey_setKey (d : List (String × Val)) (k : String) (v : Val)
    (key : String) :
    lookupKey (setKey d k v) key = if k = key then some v else lookupKey d key := by
  induction d with
  | nil => simp [setKey, lookupKey]
  | cons kv rest ih =>
    obtain ⟨k', v'⟩ := kv
    by_cases h : k' = k
    · subst h
      rw [setKey, if_pos rfl]
      by_cases h2 : k' = key
      · subst h2
        rw [lookupKey, if_pos rfl, lookupKey, if_pos rfl]
      · rw [lookupKey, if_neg h2, lookupKey, if_neg h2, if_neg h2]
    · rw [setKey, if_neg h]
      by_cases h2 : k' = key
      · subst h2
        rw [lookupKey, if_pos rfl, lookupKey, if_pos rfl,
          if_neg (fun hk => h hk.symm)]
      · rw [lookupKey, if_neg h2, lookupKey, if_neg h2, ih]

theorem lookupKey_eq_none_of_not_mem :
    ∀ {d : List (String × Val)} {key : String},
    key ∉ d.map Prod.fst → lookupKey d key = none := by
  intro d
  induction d with
  | nil => intro key _; rfl
  | cons kv rest ih =>
    intro key h
    rw [List.map_cons, List.mem_cons, not_or] at h
    rw [lookupKey, if_neg (fun hk => h.1 (by rw [hk])), ih h.2]

theorem lookupKey_pyUpdate (d u : List (String × Val)) (key : String)
    (hu : (u.map Prod.fst).Nodup) :
    lookupKey (pyUpdate d u) key =
      match lookupKey u key with
      | some v => some v
      | none => lookupKey d key := by
  induction u generalizing d with
  | nil => simp [pyUpdate, lookupKey]
  | cons kv rest ih =>
    obtain ⟨k, v⟩ := kv
    rw [List.map_cons, List.nodup_cons] at hu
    rw [show pyUpdate d ((k, v) :: rest) = pyUpdate (setKey d k v) rest from rfl,
      ih _ hu.2]
    by_cases h : k = key
    · subst h
      rw [lookupKey_eq_none_of_not_mem hu.1, lookupKey, if_pos rfl,
        lookupKey_setKey, if_pos rfl]
    · rw [lookupKey, if_neg h]
      cases lookupKey rest key with
      | some w => rfl
      | none => rw [lookupKey_setKey, if_neg h]

/-! ## Claim theorems -/

/-- C7: `generate_context` merges the template declaration, the
default-override layer and the extra-override layer with precedence
template < default < extra, shallowly: a key present in a higher layer
takes that layer's value wholesale, and absent layers change nothing. -/
theorem generate_context_precedence (tmpl d e : Ctx) (key : String)
    (hd : (d.map Prod.fst).Nodup) (he : (e.map Prod.fst).Nodup) :
    generate_context tmpl none none = tmpl ∧
    lookupKey (generate_context tmpl (some d) (some e)) key =
      (match lookupKey e key with
       | some v => some v
       | none =>
         match lookupKey d key with
         | some v => some v
         | none => lookupKey tmpl key) := by
  have hstep : ∀ (c u : Ctx), (u.map Prod.fst).Nodup →
      lookupKey (if u.isEmpty then c else pyUpdate c u) key =
        match lookupKey u key with
        | some v => some v
        | none => lookupKey c key := by
    intro c u hu
    cases u with
    | nil => simp [lookupKey]
    | cons x xs =>
      rw [if_neg (by simp), lookupKey_pyUpdate _ _ _ hu]
  refine ⟨rfl, ?_⟩
  show lookupKey (if e.isEmpty then
      (if d.isEmpty then tmpl else pyUpdate tmpl d)
    else pyUpdate (if d.isEmpty then tmpl else pyUpdate tmpl d) e) key = _
  rw [hstep _ e he, hstep _ d hd]

theorem generate_context_precedence_witness :
    (([("b", Val.vstr "d")] : Ctx).map Prod.fst).Nodup ∧
    (([("b", Val.vstr "e")] : Ctx).map Prod.fst).Nodup ∧
    lookupKey (generate_context [("a", Val.vstr "t"), ("b", Val.vstr "t2")]
      (some [("b", Val.vstr "d")]) (some [("b", Val.vstr "e")])) "b" =
      some (Val.vstr "e") := by
  refine ⟨by simp, by simp, ?_⟩
  have h := (generate_context_precedence
    [("a", Val.vstr "t"), ("b", Val.vstr "t2")]
    [("b", Val.vstr "d")] [("b", Val.vstr "e")] "b" (by simp) (by simp)).2
  rw [h]
  rfl

/-- C8: when the context lacks the `cookiecutter` namespace key,
`generate_files`'s shim maps that key to the whole flat mapping itself
(the self-reference resolves to the wrapped mapping at every depth);
the wrap is idempotent, and a context already carrying the key is left
unchanged. -/
theorem context_namespace_wrap (ctx : Ctx) :
    (hasKey ctx "cookiecutter" = false →
      lookupKey (wrapContext ctx) "cookiecutter" = some Val.selfRef ∧
      asNamespace (wrapContext ctx) Val.selfRef = some (wrapContext ctx) ∧
      ∀ n : Nat, chaseNamespace (wrapContext ctx) n = some (wrapContext ctx)) ∧
    wrapContext (wrapContext ctx) = wrapContext ctx ∧
    (hasKey ctx "cookiecutter" = true → wrapContext ctx = ctx) := by
  have hwrap : hasKey ctx "cookiecutter" = false →
      wrapContext ctx = setKey ctx "cookiecutter" Val.selfRef := by
    intro h
    rw [wrapContext, if_neg (by simp [h])]
  have hlook : hasKey ctx "cookiecutter" = false →
      lookupKey (wrapContext ctx) "cookiecutter" = some Val.selfRef := by
    intro h
    rw [hwrap h, lookupKey_setKey, if_pos rfl]
  refine ⟨fun h => ⟨hlook h, rfl, ?_⟩, ?_, fun h => by rw [wrapContext, if_pos h]⟩
  · intro n
    induction n with
    | zero => rfl
    | succ m ih => simp only [chaseNamespace, ih, hlook h]; rfl
  · cases h : hasKey ctx "cookiecutter" with
    | true =>
      have hc : wrapContext ctx = ctx := by rw [wrapContext, if_pos h]
      simp [hc]
    | false =>
      have h2 : hasKey (wrapContext ctx) "cookiecutter" = true := by
        rw [hasKey, hlook h]
        rfl
      rw [show wrapContext (wrapContext ctx) =
        if hasKey (wrapContext ctx) "cookiecutter" then wrapContext ctx
        else setKey (wrapContext ctx) "cookiecutter" Val.selfRef from rfl,
        if_pos h2]

theorem context_namespace_wrap_witness :
    hasKey ([("project_name", Val.vstr "Demo")] : Ctx) "cookiecutter" = false ∧
    (lookupKey (wrapContext [("project_name", Val.vstr "Demo")]) "cookiecutter" =
        some Val.selfRef ∧
      asNamespace (wrapContext [("project_name", Val.vstr "Demo")]) Val.selfRef =
        some (wrapContext [("project_name", Val.vstr "Demo")]) ∧
      ∀ n : Nat, chaseNamespace (wrapContext [("project_name", Val.vstr "Demo")]) n =
        some (wrapContext [("project_name", Val.vstr "Demo")])) :=
  ⟨rfl, (context_namespace_wrap [("project_name", Val.vstr "Demo")]).1 rfl⟩

theorem any_map_vstr (path : String) : ∀ pats : List String,
    ((pats.map Val.vstr).any fun v => match v with
      | Val.vstr p => fnmatchB path p
      | _ => false) = pats.any fun p => fnmatchB path p := by
  intro pats
  induction pats with
  | nil => rfl
  | cons p ps ih => simp only [List.map_cons, List.any_cons, ih]

/-- C1: `copy_without_render` returns `True` exactly when some glob in
the `_copy_without_render` sequence matches the path's full relative
string, and returns `False` (without raising) when the namespace key or
the setting is absent. -/
theorem copy_without_render_spec (path : String) (ctx : Ctx) :
    (lookupKey ctx "cookiecutter" = none →
      copy_without_render path ctx = .ok false) ∧
    (∀ ns d, lookupKey ctx "cookiecutter" = some ns →
      asNamespace ctx ns = some d →
      lookupKey d "_copy_without_render" = none →
      copy_without_render path ctx = .ok false) ∧
    (∀ ns d (pats : List String), lookupKey ctx "cookiecutter" = some ns →
      asNamespace ctx ns = some d →
      lookupKey d "_copy_without_render" = some (Val.vlist (pats.map Val.vstr)) →
      (copy_without_render path ctx = .ok true ↔
        ∃ p ∈ pats, fnmatchB path p = true) ∧
      (copy_without_render path ctx = .ok false ↔
        ∀ p ∈ pats, fnmatchB path p = false)) := by
  refine ⟨fun h => by rw [copy_without_render, h], ?_, ?_⟩
  · intro ns d h1 h2 h3
    simp only [copy_without_render, h1, h2, h3]
  · intro ns d pats h1 h2 h3
    have hloop := cwrLoopV_ok path (pats.map Val.vstr)
      (by intro v hv; obtain ⟨s, _, rfl⟩ := List.mem_map.mp hv; exact ⟨s, rfl⟩)
    have hrw : copy_without_render path ctx =
        .ok (pats.any (fun p => fnmatchB path p)) := by
      simp only [copy_without_render, h1, h2, h3]
      show cwrLoopV path (pats.map Val.vstr) = _
      rw [hloop, any_map_vstr]
    rw [hrw]
    constructor
    · simp [List.any_eq_true]
    · simp [List.any_eq_false]

theorem copy_without_render_spec_witness :
    lookupKey ([("cookiecutter",
        Val.vdict [("_copy_without_render", Val.vlist [Val.vstr "*.bin"])])] : Ctx)
      "cookiecutter" =
      some (Val.vdict [("_copy_without_render", Val.vlist [Val.vstr "*.bin"])]) ∧
    (copy_without_render "asset.bin"
        [("cookiecutter",
          Val.vdict [("_copy_without_render", Val.vlist [Val.vstr "*.bin"])])] =
      .ok true ↔ ∃ p ∈ ["*.bin"], fnmatchB "asset.bin" p = true) := by
  refine ⟨rfl, ?_⟩
  exact ((copy_without_render_spec "asset.bin"
    [("cookiecutter",
      Val.vdict [("_copy_without_render", Val.vlist [Val.vstr "*.bin"])])]).2.2
    _ _ ["*.bin"] rfl rfl rfl).1

/-- C2 counterexample: the root name `}}x{{` contains no `{{` followed
by a `}}`, and the run does fail before creating anything — but with
the template syntax error raised while rendering the root name (its
`{{` is unterminated), not with `NonTemplatedInputDirException` as the
claim states: the unordered substring check at line 157 passes, since
each delimiter occurs somewhere in the name, and `Template(dirname)` at
line 140 then raises. -/
theorem generate_files_root_delimiter_counterexample :
    hasOpenThenClose "\x7d\x7dx\x7b\x7b".data = false ∧
    generate_files renderTemplate (fun _ => true) "\x7d\x7dx\x7b\x7b" [] [] "." "/" =
      ([], some Err.templateSyntax) ∧
    Err.templateSyntax ≠ Err.nonTemplatedInputDir := by
  refine ⟨by decide, ?_, by decide⟩
  rfl

/-- C2 (amended): for a template root whose literal name contains no
`{{` followed by a `}}`, the run fails before any directory or file is
created, but the exception depends on which delimiters occur: when the
name lacks `{{` or lacks `}}` as a substring, the unordered substring
check raises `NonTemplatedInputDirException` (for every renderer); when
both occur — necessarily out of order — the check passes and the run
instead aborts with the template syntax error raised while rendering
the root name, whose `{{` is unterminated.  A root named
`{{cookiecutter.project_name}}` passes the check and a root named
`project` fails it. -/
theorem generate_files_untemplated_root_fails
    (R : RenderFn) (H : String → Bool) (tname : String) (tree : List Entry)
    (ctx : Ctx) (od cwd : String) :
    (¬ (hasSub tname "\x7b\x7b" = true ∧ hasSub tname "\x7d\x7d" = true) →
      generate_files R H tname tree ctx od cwd =
        ([], some Err.nonTemplatedInputDir)) ∧
    (hasOpenThenClose tname.data = false →
      hasSub tname "\x7b\x7b" = true → hasSub tname "\x7d\x7d" = true →
      generate_files renderTemplate H tname tree ctx od cwd =
        ([], some Err.templateSyntax)) ∧
    ensure_dir_is_templated "\x7b\x7bcookiecutter.project_name\x7d\x7d" =
      .ok true ∧
    ensure_dir_is_templated "project" = .error Err.nonTemplatedInputDir := by
  refine ⟨?_, ?_, rfl, rfl⟩
  · intro h
    have he : ensure_dir_is_templated tname = .error .nonTemplatedInputDir := by
      rw [ensure_dir_is_templated, if_neg]
      simpa [Bool.and_eq_true] using h
    simp only [generate_files, he]
  · intro hotc hs1 hs2
    have he : ensure_dir_is_templated tname = .ok true := by
      rw [ensure_dir_is_templated,
        if_pos (by rw [Bool.and_eq_true]; exact ⟨hs1, hs2⟩)]
    have hr : renderTemplate (wrapContext ctx) tname = .error .templateSyntax :=
      renderTemplate_err _ tname hs1 hotc
    have hrcd : render_and_create_dir renderTemplate (wrapContext ctx) tname od
        = .error .templateSyntax := by
      rw [render_and_create_dir, hr]
    simp only [generate_files, he, hrcd]

theorem generate_files_untemplated_root_fails_witness :
    (¬ (hasSub "project" "\x7b\x7b" = true ∧
        hasSub "project" "\x7d\x7d" = true)) ∧
    generate_files renderTemplate (fun _ => true) "project" [] [] "." "/" =
      ([], some Err.nonTemplatedInputDir) ∧
    hasOpenThenClose "\x7d\x7dx\x7b\x7b".data = false ∧
    generate_files renderTemplate (fun _ => true) "\x7d\x7dx\x7b\x7b" [] [] "." "/"
      = ([], some Err.templateSyntax) :=
  ⟨by decide,
    (generate_files_untemplated_root_fails renderTemplate (fun _ => true)
      "project" [] [] "." "/").1 (by decide),
    by decide,
    (generate_files_untemplated_root_fails renderTemplate (fun _ => true)
      "\x7d\x7dx\x7b\x7b" [] [] "." "/").2.1 (by decide) (by decide) (by decide)⟩

/-- C9 counterexample: with the (default-style) relative output root
`.`, `render_and_create_dir` returns the relative path `demo` — not an
absolute path; `generate_files` itself has to call `abspath` on the
result (line 189). -/
theorem render_and_create_dir_not_absolute :
    render_and_create_dir renderTemplate [] "demo" "." =
      .ok ([Op.createDir "demo"], "demo") ∧
    posixIsAbs "demo" = false := by
  refine ⟨?_, by decide⟩
  rfl

theorem head_append_of_ne_nil {l : List Char} (y : List Char)
    (h : l ≠ []) : (l ++ y).head? = l.head? := by
  cases l with
  | nil => exact absurd rfl h
  | cons c rest => rfl

theorem normpathC_head_slash {s : List Char} (h : s.head? = some '/') :
    (normpathC s).head? = some '/' := by
  have hne : s ≠ [] := by
    cases s
    · simp at h
    · simp
  rw [normpathC, if_neg hne]
  have hsl : npSlashes s = 1 ∨ npSlashes s = 2 := by
    rw [npSlashes, if_pos h]
    by_cases h2 : (['/', '/'] <+: s) ∧ ¬ (['/', '/', '/'] <+: s)
    · right; rw [if_pos h2]
    · left; rw [if_neg h2]
  rcases hsl with h1 | h1 <;> rw [h1] <;> simp [List.replicate]

/-- C9 (amended): when rendering the name succeeds,
`render_and_create_dir` joins the rendered name under the output root
and normalizes it (the result is absolute whenever the output root is
absolute, but relative when the root is relative), records the
recursive creation of that path, and returns it; the modelled
`make_sure_path_exists` is idempotent and treats a pre-existing
directory as success rather than an error. -/
theorem render_and_create_dir_spec (R : RenderFn) (ctx : Ctx)
    (dirname od out : String) (fs : List String) (p : String)
    (hr : R ctx dirname = .ok out) :
    render_and_create_dir R ctx dirname od =
      .ok ([Op.createDir (normpathStr (pjoin od out))],
        normpathStr (pjoin od out)) ∧
    (posixIsAbs od = true →
      posixIsAbs (normpathStr (pjoin od out)) = true) ∧
    make_sure_path_exists (make_sure_path_exists fs p) p =
      make_sure_path_exists fs p ∧
    (p ∈ fs → make_sure_path_exists fs p = fs) := by
  refine ⟨by rw [render_and_create_dir, hr], ?_, ?_,
    fun hm => by rw [make_sure_path_exists, if_pos hm]⟩
  · intro habs
    have hod : od.data.head? = some '/' := of_decide_eq_true habs
    have hodne : od.data ≠ [] := by
      cases hd : od.data
      · rw [hd] at hod; simp at hod
      · simp
    have key : (pjoin od out).data.head? = some '/' := by
      rw [pjoin]
      by_cases h1 : out.data.head? = some '/'
      · rw [if_pos h1]; exact h1
      · rw [if_neg h1]
        by_cases h2 : od.data = [] ∨ od.data.getLast? = some '/'
        · rw [if_pos h2]
          show (od.data ++ out.data).head? = some '/'
          rw [head_append_of_ne_nil _ hodne, hod]
        · rw [if_neg h2]
          show (od.data ++ '/' :: out.data).head? = some '/'
          rw [head_append_of_ne_nil _ hodne, hod]
    show decide (_ = _) = true
    rw [decide_eq_true_iff]
    exact normpathC_head_slash key
  · have hmem : p ∈ make_sure_path_exists fs p := by
      rw [make_sure_path_exists]
      by_cases hm : p ∈ fs
      · rw [if_pos hm]; exact hm
      · rw [if_neg hm]; exact List.mem_cons_self ..
    rw [show make_sure_path_exists (make_sure_path_exists fs p) p =
      if p ∈ make_sure_path_exists fs p then make_sure_path_exists fs p
      else p :: make_sure_path_exists fs p from rfl, if_pos hmem]

theorem render_and_create_dir_spec_witness :
    posixIsAbs "/out" = true ∧
    renderTemplate [] "demo" = .ok "demo" ∧
    render_and_create_dir renderTemplate [] "demo" "/out" =
      .ok ([Op.createDir (normpathStr (pjoin "/out" "demo"))],
        normpathStr (pjoin "/out" "demo")) ∧
    posixIsAbs (normpathStr (pjoin "/out" "demo")) = true ∧
    ("d" ∈ ["d"] → make_sure_path_exists ["d"] "d" = ["d"]) :=
  ⟨by decide, rfl,
    (render_and_create_dir_spec renderTemplate [] "demo" "/out" "demo"
      ["d"] "d" rfl).1,
    (render_and_create_dir_spec renderTemplate [] "demo" "/out" "demo"
      ["d"] "d" rfl).2.1 (by decide),
    (render_and_create_dir_spec renderTemplate [] "demo" "/out" "demo"
      ["d"] "d" rfl).2.2.2⟩

/-- C4: a text file whose contents contain no template expression is
written back byte-for-byte (the modelled renderer preserves every
character, including a trailing newline), and whenever an output file
is produced the input file's permission bits are copied onto it
unconditionally, for binary and text outputs alike. -/
theorem generate_file_roundtrip_and_mode (project_dir infile contents : String)
    (mode : Nat) (ctx : Ctx) :
    (∀ out, noTemplateExpr contents = true →
      renderTemplate ctx infile = .ok out →
      generate_file renderTemplate project_dir infile contents false mode ctx =
        .ok [Op.writeFile infile (pjoin project_dir out) contents,
          Op.copyMode infile (pjoin project_dir out) mode]) ∧
    (∀ (R : RenderFn) (isBin : Bool) (out : String) (ops : List Op),
      R ctx infile = .ok out →
      generate_file R project_dir infile contents isBin mode ctx = .ok ops →
      Op.copyMode infile (pjoin project_dir out) mode ∈ ops) := by
  constructor
  · intro out h hpath
    rw [generate_file, hpath, renderTemplate_id h]
    rfl
  · intro R isBin out ops hpath hops
    cases isBin with
    | true =>
      have hg : generate_file R project_dir infile contents true mode ctx =
          .ok [Op.copyFile infile (pjoin project_dir out) contents,
            Op.copyMode infile (pjoin project_dir out) mode] := by
        rw [generate_file, hpath]
        rfl
      rw [hg] at hops
      injection hops with hops
      rw [← hops]
      simp
    | false =>
      cases hc : R ctx contents with
      | error e =>
        have hg : generate_file R project_dir infile contents false mode ctx =
            .error e := by
          rw [generate_file, hpath, hc]
          rfl
        rw [hg] at hops
        simp at hops
      | ok rendered =>
        have hg : generate_file R project_dir infile contents false mode ctx =
            .ok [Op.writeFile infile (pjoin project_dir out) rendered,
              Op.copyMode infile (pjoin project_dir out) mode] := by
          rw [generate_file, hpath, hc]
          rfl
        rw [hg] at hops
        injection hops with hops
        rw [← hops]
        simp

theorem generate_file_roundtrip_and_mode_witness :
    noTemplateExpr "hello\n" = true ∧
    renderTemplate [] "f.txt" = .ok "f.txt" ∧
    generate_file renderTemplate "/out" "f.txt" "hello\n" false 420 [] =
      .ok [Op.writeFile "f.txt" (pjoin "/out" "f.txt") "hello\n",
        Op.copyMode "f.txt" (pjoin "/out" "f.txt") 420] :=
  ⟨by decide, rfl,
    (generate_file_roundtrip_and_mode "/out" "f.txt" "hello\n" 420 []).1
      "f.txt" (by decide) rfl⟩

/-- C3: a binary-classified file's bytes are copied exactly as read and
never rendered — the trace is the same for every renderer `R`, which
only ever sees the path — and a file matching the copy-without-render
policy is likewise copied byte-for-byte with only its path rendered, so
a `{{` inside such contents survives unchanged; in both cases the mode
is copied too. -/
theorem binary_and_copy_passthrough (project_dir infile contents : String)
    (mode : Nat) (ctx : Ctx) :
    (∀ (R : RenderFn) (out : String), R ctx infile = .ok out →
      generate_file R project_dir infile contents true mode ctx =
        .ok [Op.copyFile infile (pjoin project_dir out) contents,
          Op.copyMode infile (pjoin project_dir out) mode]) ∧
    (∀ (R : RenderFn) (root name : String) (isBin : Bool)
      (rest : List (String × String × Bool × Nat)) (out : String),
      copy_without_render (normpathStr (pjoin root name)) ctx = .ok true →
      R ctx (normpathStr (pjoin root name)) = .ok out →
      processFiles R ctx project_dir root ((name, contents, isBin, mode) :: rest) =
        ([Op.copyFile (normpathStr (pjoin root name))
            (pjoin project_dir out) contents,
          Op.copyMode (normpathStr (pjoin root name))
            (pjoin project_dir out) mode]
          ++ (processFiles R ctx project_dir root rest).1,
         normpathStr (pjoin root name) ::
           (processFiles R ctx project_dir root rest).2.1,
         (processFiles R ctx project_dir root rest).2.2)) := by
  constructor
  · intro R out hout
    rw [generate_file, hout]
    rfl
  · intro R root name isBin rest out h hout
    simp only [processFiles, h, hout]

theorem binary_and_copy_passthrough_witness :
    copy_without_render (normpathStr (pjoin "." "asset.bin"))
      [("cookiecutter", Val.vdict
        [("_copy_without_render", Val.vlist [Val.vstr "*.bin"])])] = .ok true ∧
    renderTemplate
      [("cookiecutter", Val.vdict
        [("_copy_without_render", Val.vlist [Val.vstr "*.bin"])])]
      (normpathStr (pjoin "." "asset.bin")) = .ok "asset.bin" ∧
    processFiles renderTemplate
      [("cookiecutter", Val.vdict
        [("_copy_without_render", Val.vlist [Val.vstr "*.bin"])])]
      "/out" "." [("asset.bin", "x\x7b\x7by", false, 7)] =
      ([Op.copyFile (normpathStr (pjoin "." "asset.bin"))
          (pjoin "/out" "asset.bin") "x\x7b\x7by",
        Op.copyMode (normpathStr (pjoin "." "asset.bin"))
          (pjoin "/out" "asset.bin") 7]
        ++ (processFiles renderTemplate
          [("cookiecutter", Val.vdict
            [("_copy_without_render", Val.vlist [Val.vstr "*.bin"])])]
          "/out" "." []).1,
       normpathStr (pjoin "." "asset.bin") ::
         (processFiles renderTemplate
          [("cookiecutter", Val.vdict
            [("_copy_without_render", Val.vlist [Val.vstr "*.bin"])])]
          "/out" "." []).2.1,
       (processFiles renderTemplate
          [("cookiecutter", Val.vdict
            [("_copy_without_render", Val.vlist [Val.vstr "*.bin"])])]
          "/out" "." []).2.2) :=
  ⟨rfl, rfl,
    (binary_and_copy_passthrough "/out" "unused" "x\x7b\x7by" 7
      [("cookiecutter", Val.vdict
        [("_copy_without_render", Val.vlist [Val.vstr "*.bin"])])]).2
      renderTemplate "." "asset.bin" false [] "asset.bin" rfl rfl⟩

/-- A successful `render_and_create_dir` records exactly the creation
of the path it returns. -/
theorem render_and_create_dir_ok_shape {R : RenderFn} {ctx : Ctx}
    {dn od : String} {rcd : List Op × String}
    (h : render_and_create_dir R ctx dn od = .ok rcd) :
    rcd.1 = [Op.createDir rcd.2] := by
  rw [render_and_create_dir] at h
  cases hr : R ctx dn with
  | error e => rw [hr] at h; simp at h
  | ok o =>
    rw [hr] at h
    injection h with h
    rw [← h]

/-- C5: in a successful run the trace is exactly — project-directory
creation, the pre hook, the walk's directory and file effects, the post
hook — so `pre_gen_project` runs after the project root is created and
before any file is generated, and `post_gen_project` only after every
file and directory of the walk; a pre-hook failure aborts the run with
no file effect at all. -/
theorem hook_bracketing (R : RenderFn) (H : String → Bool)
    (tname : String) (tree : List Entry) (ctx : Ctx) (od cwd : String) :
    ((generate_files R H tname tree ctx od cwd).2 = none →
      ∃ p w, (generate_files R H tname tree ctx od cwd).1 =
        Op.createDir p :: Op.hook "pre_gen_project" :: w ++
          [Op.hook "post_gen_project"]) ∧
    (H "pre_gen_project" = false →
      ∀ op ∈ (generate_files R H tname tree ctx od cwd).1,
        isFileOp op = false) := by
  cases hens : ensure_dir_is_templated tname with
  | error e =>
    constructor
    · intro h
      simp only [generate_files, hens] at h
      simp at h
    · intro _ op hop
      simp only [generate_files, hens] at hop
      simp at hop
  | ok b =>
    cases hrcd : render_and_create_dir R (wrapContext ctx) tname od with
    | error e =>
      constructor
      · intro h
        simp only [generate_files, hens, hrcd] at h
        simp at h
      · intro _ op hop
        simp only [generate_files, hens, hrcd] at hop
        simp at hop
    | ok rcd =>
      have hshape := render_and_create_dir_ok_shape hrcd
      cases hpre : H "pre_gen_project" with
      | false =>
        constructor
        · intro h
          simp only [generate_files, hens, hrcd, hpre] at h
          simp at h
        · intro _ op hop
          simp only [generate_files, hens, hrcd, hpre] at hop
          rw [hshape] at hop
          simp at hop
          rcases hop with h | h <;> rw [h] <;> rfl
      | true =>
        constructor
        · intro h
          simp only [generate_files, hens, hrcd, hpre] at h ⊢
          generalize hwalk : walkEntriesF R (wrapContext ctx)
              (posixAbspath cwd rcd.2) od (forestSize tree + 1) "." tree =
            wres at h ⊢
          cases hw : wres.err with
          | some e => rw [hw] at h; simp at h
          | none =>
            rw [hw] at h
            cases hpost : H "post_gen_project" with
            | false => rw [hpost] at h; simp at h
            | true =>
              refine ⟨rcd.2, wres.ops, ?_⟩
              rw [hshape]
              simp
        · intro hH
          exact absurd hH (by simp)

theorem hook_bracketing_witness :
    (generate_files renderTemplate (fun _ => true)
        "x\x7b\x7by\x7d\x7d" [] [] "." "/").2 = none ∧
    (∃ p w,
      (generate_files renderTemplate (fun _ => true)
          "x\x7b\x7by\x7d\x7d" [] [] "." "/").1 =
        Op.createDir p :: Op.hook "pre_gen_project" :: w ++
          [Op.hook "post_gen_project"]) ∧
    ((fun (_ : String) => false) "pre_gen_project" = false ∧
      ∀ op ∈ (generate_files renderTemplate (fun _ => false)
          "x\x7b\x7by\x7d\x7d" [] [] "." "/").1,
        isFileOp op = false) := by
  have h2 : (generate_files renderTemplate (fun _ => true)
      "x\x7b\x7by\x7d\x7d" [] [] "." "/").2 = none := rfl
  exact ⟨h2,
    (hook_bracketing renderTemplate (fun _ => true)
      "x\x7b\x7by\x7d\x7d" [] [] "." "/").1 h2,
    rfl,
    (hook_bracketing renderTemplate (fun _ => false)
      "x\x7b\x7by\x7d\x7d" [] [] "." "/").2 rfl⟩

theorem dirsOf_mem {es : List Entry} {n : String} {kids : List Entry}
    (h : (n, kids) ∈ dirsOf es) : Entry.dir n kids ∈ es := by
  rw [dirsOf, List.mem_filterMap] at h
  obtain ⟨e, he, hf⟩ := h
  cases e with
  | file _ _ _ _ => simp at hf
  | dir m ks =>
    simp at hf
    obtain ⟨rfl, rfl⟩ := hf
    exact he

theorem forestSize_lt_of_mem : ∀ {es : List Entry} {n : String} {kids : List Entry},
    Entry.dir n kids ∈ es → forestSize kids < forestSize es := by
  intro es
  induction es with
  | nil => intro n kids h; simp at h
  | cons e rest ih =>
    intro n kids h
    rcases List.mem_cons.mp h with he | h'
    · rw [← he, forestSize]
      omega
    · have hlt := ih h'
      cases e with
      | file a b c d => rw [forestSize]; omega
      | dir m ks => rw [forestSize]; omega

theorem rootOf_append (ps : List String) (n : String) :
    rootOf (ps ++ [n]) = pjoin (rootOf ps) n := by
  rw [rootOf, rootOf, List.foldl_append, List.foldl_cons, List.foldl_nil]

theorem not_inside_of_longer {as bs : List String} (ha : as ≠ []) (hb : bs ≠ [])
    (hwa : ∀ p ∈ as, wfName p) (hwb : ∀ p ∈ bs, wfName p)
    (hlen : bs.length ≤ as.length) :
    ¬ strictlyInside (pathStr as) (pathStr bs) := by
  intro h
  obtain ⟨hpre, hne⟩ := pathD_prefix as bs ha hb hwa hwb h
  exact hne (hpre.eq_of_length (le_antisymm hpre.length_le hlen))

theorem inside_cons_eq {ps : List String} {n m : String} {A B : List String}
    (hwn : ∀ p ∈ ps ++ n :: A, wfName p) (hwm : ∀ p ∈ ps ++ m :: B, wfName p)
    (h : strictlyInside (pathStr (ps ++ n :: A)) (pathStr (ps ++ m :: B))) :
    n = m := by
  obtain ⟨hpre, _⟩ := pathD_prefix (ps ++ n :: A) (ps ++ m :: B)
    (by simp) (by simp) hwn hwm h
  have h2 := (List.prefix_append_right_inj ps).mp hpre
  exact (List.cons_prefix_cons.mp h2).1

theorem partitionDirs_spec {ctx : Ctx} (hctx : ctxCwrOk ctx = true)
    (root : String) : ∀ ds : List (String × List Entry),
    partitionDirs ctx root ds =
      (ds.map (fun nk => normpathStr (pjoin root nk.1)),
       .ok (ds.filter (fun nk => cwrB (normpathStr (pjoin root nk.1)) ctx),
            ds.filter (fun nk => !cwrB (normpathStr (pjoin root nk.1)) ctx))) := by
  intro ds
  induction ds with
  | nil => rfl
  | cons nk rest ih =>
    obtain ⟨n, kids⟩ := nk
    rw [partitionDirs, copy_without_render_ok hctx, ih]
    by_cases hb : cwrB (normpathStr (pjoin root n)) ctx
    · simp [hb, List.filter_cons, Except.map]
    · simp [hb, List.filter_cons, Except.map]

/-- Every path the file loop tests is the normalized joined path of one
of the level's files — whether or not the loop aborts partway. -/
theorem processFiles_tested_mem (R : RenderFn) (ctx : Ctx) (pd root : String) :
    ∀ fs : List (String × String × Bool × Nat),
    ∀ t ∈ (processFiles R ctx pd root fs).2.1,
    ∃ fi ∈ fs, t = normpathStr (pjoin root fi.1) := by
  intro fs
  induction fs with
  | nil => intro t ht; simp [processFiles] at ht
  | cons f rest ih =>
    obtain ⟨name, contents, isBin, mode⟩ := f
    intro t ht
    rw [processFiles] at ht
    cases hcwr : copy_without_render (normpathStr (pjoin root name)) ctx with
    | error e =>
      rw [hcwr] at ht
      simp at ht
      exact ⟨(name, contents, isBin, mode), List.mem_cons_self .., ht⟩
    | ok b =>
      rw [hcwr] at ht
      cases b with
      | true =>
        cases hr : R ctx (normpathStr (pjoin root name)) with
        | error e =>
          rw [hr] at ht
          simp at ht
          exact ⟨(name, contents, isBin, mode), List.mem_cons_self .., ht⟩
        | ok o =>
          rw [hr] at ht
          simp only [List.mem_cons] at ht
          rcases ht with rfl | ht'
          · exact ⟨(name, contents, isBin, mode), List.mem_cons_self .., rfl⟩
          · obtain ⟨fi, hfi, hfeq⟩ := ih t ht'
            exact ⟨fi, List.mem_cons_of_mem _ hfi, hfeq⟩
      | false =>
        cases hg : generate_file R pd (normpathStr (pjoin root name))
            contents isBin mode ctx with
        | error e =>
          rw [hg] at ht
          simp at ht
          exact ⟨(name, contents, isBin, mode), List.mem_cons_self .., ht⟩
        | ok ops =>
          rw [hg] at ht
          simp only [List.mem_cons] at ht
          rcases ht with rfl | ht'
          · exact ⟨(name, contents, isBin, mode), List.mem_cons_self .., rfl⟩
          · obtain ⟨fi, hfi, hfeq⟩ := ih t ht'
            exact ⟨fi, List.mem_cons_of_mem _ hfi, hfeq⟩

/-- Every tested path of a sequenced walk comes from one of the walks,
whether or not one of them aborted. -/
theorem seqRes_tested_mem : ∀ rs : List WalkRes, ∀ t ∈ (seqRes rs).tested,
    ∃ r ∈ rs, t ∈ r.tested := by
  intro rs
  induction rs with
  | nil => intro t ht; simp [seqRes] at ht
  | cons r rest ih =>
    intro t ht
    rw [seqRes] at ht
    cases he : r.err with
    | some e =>
      rw [he] at ht
      exact ⟨r, List.mem_cons_self .., ht⟩
    | none =>
      rw [he] at ht
      rcases List.mem_append.mp ht with h | h
      · exact ⟨r, List.mem_cons_self .., h⟩
      · obtain ⟨r2, hr2, hmem⟩ := ih t h
        exact ⟨r2, List.mem_cons_of_mem _ hr2, hmem⟩

/-- A copy hit of a sequenced walk comes from one of the walks, and
that walk's whole trace is contained in the sequenced trace. -/
theorem seqRes_hits_mem : ∀ rs : List WalkRes, ∀ q kids,
    (q, kids) ∈ (seqRes rs).copyHits →
    ∃ r ∈ rs, (q, kids) ∈ r.copyHits ∧ ∀ op ∈ r.ops, op ∈ (seqRes rs).ops := by
  intro rs
  induction rs with
  | nil => intro q kids h; simp [seqRes] at h
  | cons r rest ih =>
    intro q kids h
    rw [seqRes] at h
    cases he : r.err with
    | some e =>
      rw [he] at h
      refine ⟨r, List.mem_cons_self .., h, ?_⟩
      intro op hop
      rw [seqRes, he]
      exact hop
    | none =>
      rw [he] at h
      rcases List.mem_append.mp h with h1 | h1
      · refine ⟨r, List.mem_cons_self .., h1, ?_⟩
        intro op hop
        rw [seqRes, he]
        exact List.mem_append_left _ hop
      · obtain ⟨r2, hr2, hmem, hops⟩ := ih q kids h1
        refine ⟨r2, List.mem_cons_of_mem _ hr2, hmem, ?_⟩
        intro op hop
        rw [seqRes, he]
        exact List.mem_append_right _ (hops op hop)

theorem filesOf_mem {es : List Entry} {n c : String} {b : Bool} {m : Nat}
    (h : (n, c, b, m) ∈ filesOf es) : Entry.file n c b m ∈ es := by
  rw [filesOf, List.mem_filterMap] at h
  obtain ⟨e, he, hf⟩ := h
  cases e with
  | dir _ _ => simp at hf
  | file n' c' b' m' =>
    simp at hf
    obtain ⟨rfl, rfl, rfl, rfl⟩ := hf
    exact he

theorem nodup_keys_eq {α β : Type} {l : List (α × β)}
    (h : (l.map Prod.fst).Nodup) {a : α} {b c : β}
    (h1 : (a, b) ∈ l) (h2 : (a, c) ∈ l) : b = c := by
  induction l with
  | nil => simp at h1
  | cons kv rest ih =>
    rw [List.map_cons, List.nodup_cons] at h
    rcases List.mem_cons.mp h1 with he1 | he1 <;>
      rcases List.mem_cons.mp h2 with he2 | he2
    · rw [← he2] at he1
      exact congrArg Prod.snd he1
    · exfalso
      exact h.1 (by rw [← he1]; exact List.mem_map.mpr ⟨(a, c), he2, rfl⟩)
    · exfalso
      exact h.1 (by rw [← he2]; exact List.mem_map.mpr ⟨(a, b), he1, rfl⟩)
    · exact ih h.2 he1 he2

theorem dirsOf_names_sublist : ∀ es : List Entry,
    ((dirsOf es).map Prod.fst).Sublist (es.map entryName) := by
  intro es
  induction es with
  | nil => simp [dirsOf]
  | cons e rest ih =>
    cases e with
    | file a b c d =>
      rw [show dirsOf (Entry.file a b c d :: rest) = dirsOf rest from rfl,
        List.map_cons]
      exact ih.cons _
    | dir n kids =>
      rw [show dirsOf (Entry.dir n kids :: rest) = (n, kids) :: dirsOf rest
        from rfl, List.map_cons, List.map_cons]
      exact ih.cons₂ _

/-- One unfolding of the walker when the policy raises nowhere at the
level and the directory-creation loop aborts. -/
theorem walkEntriesF_eq_mkErr (R : RenderFn) (ctx : Ctx) (pd od : String)
    (fuel : Nat) (root : String) (entries : List Entry)
    (cs rs : List (String × List Entry)) (e : Err)
    (hpart : partitionDirs ctx root (dirsOf entries) =
      ((dirsOf entries).map (fun nk => normpathStr (pjoin root nk.1)),
        .ok (cs, rs)))
    (hmk : (mkdirLoop R ctx od (pjoin pd root) rs).2 = some e) :
    walkEntriesF R ctx pd od (fuel + 1) root entries =
      ⟨(cs.map fun nk => Op.copyTree (normpathStr (pjoin root nk.1))
          (normpathStr (pjoin pd (normpathStr (pjoin root nk.1)))) nk.2) ++
        (mkdirLoop R ctx od (pjoin pd root) rs).1,
       (dirsOf entries).map fun nk => normpathStr (pjoin root nk.1),
       cs.map fun nk => (normpathStr (pjoin root nk.1), nk.2),
       some e⟩ := by
  rw [walkEntriesF, hpart]
  simp only []
  rw [hmk]

/-- One unfolding of the walker when the policy raises nowhere at the
level, the directory-creation loop succeeds, and the file loop
aborts. -/
theorem walkEntriesF_eq_fileErr (R : RenderFn) (ctx : Ctx) (pd od : String)
    (fuel : Nat) (root : String) (entries : List Entry)
    (cs rs : List (String × List Entry)) (e : Err)
    (hpart : partitionDirs ctx root (dirsOf entries) =
      ((dirsOf entries).map (fun nk => normpathStr (pjoin root nk.1)),
        .ok (cs, rs)))
    (hmk : (mkdirLoop R ctx od (pjoin pd root) rs).2 = none)
    (hfe : (processFiles R ctx pd root (filesOf entries)).2.2 = some e) :
    walkEntriesF R ctx pd od (fuel + 1) root entries =
      ⟨(cs.map fun nk => Op.copyTree (normpathStr (pjoin root nk.1))
          (normpathStr (pjoin pd (normpathStr (pjoin root nk.1)))) nk.2) ++
        (mkdirLoop R ctx od (pjoin pd root) rs).1 ++
        (processFiles R ctx pd root (filesOf entries)).1,
       ((dirsOf entries).map fun nk => normpathStr (pjoin root nk.1)) ++
        (processFiles R ctx pd root (filesOf entries)).2.1,
       cs.map fun nk => (normpathStr (pjoin root nk.1), nk.2),
       some e⟩ := by
  rw [walkEntriesF, hpart]
  simp only []
  rw [hmk]
  simp only []
  rw [hfe]

/-- One unfolding of the walker when the policy raises nowhere at the
level and both the directory-creation loop and the file loop
succeed. -/
theorem walkEntriesF_eq_of_ok (R : RenderFn) (ctx : Ctx) (pd od : String)
    (fuel : Nat) (root : String) (entries : List Entry)
    (cs rs : List (String × List Entry))
    (hpart : partitionDirs ctx root (dirsOf entries) =
      ((dirsOf entries).map (fun nk => normpathStr (pjoin root nk.1)),
        .ok (cs, rs)))
    (hmk : (mkdirLoop R ctx od (pjoin pd root) rs).2 = none)
    (hfe : (processFiles R ctx pd root (filesOf entries)).2.2 = none) :
    walkEntriesF R ctx pd od (fuel + 1) root entries =
      ⟨(cs.map fun nk => Op.copyTree (normpathStr (pjoin root nk.1))
          (normpathStr (pjoin pd (normpathStr (pjoin root nk.1)))) nk.2) ++
        (mkdirLoop R ctx od (pjoin pd root) rs).1 ++
        (processFiles R ctx pd root (filesOf entries)).1 ++
        (seqRes (rs.map fun nk =>
          walkEntriesF R ctx pd od fuel (pjoin root nk.1) nk.2)).ops,
       ((dirsOf entries).map fun nk => normpathStr (pjoin root nk.1)) ++
        (processFiles R ctx pd root (filesOf entries)).2.1 ++
        (seqRes (rs.map fun nk =>
          walkEntriesF R ctx pd od fuel (pjoin root nk.1) nk.2)).tested,
       (cs.map fun nk => (normpathStr (pjoin root nk.1), nk.2)) ++
        (seqRes (rs.map fun nk =>
          walkEntriesF R ctx pd od fuel (pjoin root nk.1) nk.2)).copyHits,
       (seqRes (rs.map fun nk =>
          walkEntriesF R ctx pd od fuel (pjoin root nk.1) nk.2)).err⟩ := by
  rw [walkEntriesF, hpart]
  simp only []
  rw [hmk]
  simp only []
  rw [hfe]

theorem SupportsAt.up {ps : List String} {n t : String}
    (hn : wfName n) (h : SupportsAt (ps ++ [n]) t) : SupportsAt ps t := by
  obtain ⟨qs, hne, hwf, rfl⟩ := h
  refine ⟨n :: qs, by simp, ?_, congrArg pathStr (by simp)⟩
  intro x hx
  rcases List.mem_cons.mp hx with rfl | hx
  · exact hn
  · exact hwf x hx

theorem walk_master (R : RenderFn) {ctx : Ctx} (hctx : ctxCwrOk ctx = true)
    (pd od : String) :
    ∀ (fuel : Nat) (ps : List String) (entries : List Entry),
    WfForest entries → (∀ p ∈ ps, wfName p) → forestSize entries < fuel →
    ((∀ t ∈ (walkEntriesF R ctx pd od fuel (rootOf ps) entries).tested,
       SupportsAt ps t) ∧
     (∀ q kids,
       (q, kids) ∈ (walkEntriesF R ctx pd od fuel (rootOf ps) entries).copyHits →
       SupportsAt ps q ∧
       Op.copyTree q (normpathStr (pjoin pd q)) kids ∈
         (walkEntriesF R ctx pd od fuel (rootOf ps) entries).ops ∧
       (∀ t ∈ (walkEntriesF R ctx pd od fuel (rootOf ps) entries).tested,
         ¬ strictlyInside q t))) := by
  intro fuel
  induction fuel with
  | zero => intro ps entries _ _ h; omega
  | succ f ih =>
    intro ps entries hwf hps hsize
    cases hwf with
    | mk _ hnodup hnames hrecwf =>
      have hwfdir : ∀ nk ∈ dirsOf entries, wfName nk.1 := by
        intro nk hnk
        have := hnames _ (dirsOf_mem (show (nk.1, nk.2) ∈ dirsOf entries from hnk))
        simpa [entryName] using this
      have hwfile : ∀ fi ∈ filesOf entries, wfName fi.1 := by
        intro fi hfi
        obtain ⟨n, c, b, m⟩ := fi
        have := hnames _ (filesOf_mem hfi)
        simpa [entryName] using this
      have hpart := partitionDirs_spec hctx (rootOf ps) (dirsOf entries)
      have hrecfact : ∀ nk ∈ (dirsOf entries).filter
          (fun nk => !cwrB (normpathStr (pjoin (rootOf ps) nk.1)) ctx),
          ((∀ t ∈ (walkEntriesF R ctx pd od f (pjoin (rootOf ps) nk.1) nk.2).tested,
             SupportsAt (ps ++ [nk.1]) t) ∧
           (∀ q kids, (q, kids) ∈
               (walkEntriesF R ctx pd od f (pjoin (rootOf ps) nk.1) nk.2).copyHits →
             SupportsAt (ps ++ [nk.1]) q ∧
             Op.copyTree q (normpathStr (pjoin pd q)) kids ∈
               (walkEntriesF R ctx pd od f (pjoin (rootOf ps) nk.1) nk.2).ops ∧
             (∀ t ∈ (walkEntriesF R ctx pd od f (pjoin (rootOf ps) nk.1) nk.2).tested,
               ¬ strictlyInside q t))) := by
        intro nk hnk
        have hmds : nk ∈ dirsOf entries := List.mem_of_mem_filter hnk
        have hment : Entry.dir nk.1 nk.2 ∈ entries :=
          dirsOf_mem (show (nk.1, nk.2) ∈ dirsOf entries from hmds)
        have hkids : WfForest nk.2 := hrecwf nk.1 nk.2 hment
        have hn : wfName nk.1 := hwfdir nk hmds
        have hsz : forestSize nk.2 < f := by
          have := forestSize_lt_of_mem hment
          omega
        have hthis := ih (ps ++ [nk.1]) nk.2 hkids
          (by
            intro p hp
            rcases List.mem_append.mp hp with h | h
            · exact hps p h
            · rw [List.mem_singleton.mp h]; exact hn) hsz
        rw [rootOf_append] at hthis
        exact hthis
      have happ : ∀ (n : String), wfName n → ∀ (qs : List String),
          (∀ x ∈ qs, wfName x) → ∀ p ∈ ps ++ n :: qs, wfName p := by
        intro n hn qs hqs p hp
        rcases List.mem_append.mp hp with h | h
        · exact hps p h
        · rcases List.mem_cons.mp h with rfl | h
          · exact hn
          · exact hqs p h
      have hnodupR : (((dirsOf entries).filter
          (fun nk => !cwrB (normpathStr (pjoin (rootOf ps) nk.1)) ctx)).map
          Prod.fst).Nodup :=
        (((List.filter_sublist _).map Prod.fst).trans
          (dirsOf_names_sublist entries)).nodup hnodup
      have main : ∀ (T : List String) (O : List Op)
          (Hs : List (String × List Entry)),
          (∀ t ∈ T,
            (∃ nk ∈ dirsOf entries, t = normpathStr (pjoin (rootOf ps) nk.1)) ∨
            (∃ fi ∈ filesOf entries, t = normpathStr (pjoin (rootOf ps) fi.1)) ∨
            (∃ nk ∈ (dirsOf entries).filter
              (fun nk => !cwrB (normpathStr (pjoin (rootOf ps) nk.1)) ctx),
              t ∈ (walkEntriesF R ctx pd od f
                (pjoin (rootOf ps) nk.1) nk.2).tested)) →
          (∀ q kids, (q, kids) ∈ Hs →
            (∃ nk ∈ (dirsOf entries).filter
              (fun nk => cwrB (normpathStr (pjoin (rootOf ps) nk.1)) ctx),
              q = normpathStr (pjoin (rootOf ps) nk.1) ∧ kids = nk.2) ∨
            (∃ nk ∈ (dirsOf entries).filter
              (fun nk => !cwrB (normpathStr (pjoin (rootOf ps) nk.1)) ctx),
              (q, kids) ∈ (walkEntriesF R ctx pd od f
                (pjoin (rootOf ps) nk.1) nk.2).copyHits ∧
              ∀ op ∈ (walkEntriesF R ctx pd od f
                (pjoin (rootOf ps) nk.1) nk.2).ops, op ∈ O)) →
          (∀ nk ∈ (dirsOf entries).filter
            (fun nk => cwrB (normpathStr (pjoin (rootOf ps) nk.1)) ctx),
            Op.copyTree (normpathStr (pjoin (rootOf ps) nk.1))
              (normpathStr (pjoin pd (normpathStr (pjoin (rootOf ps) nk.1))))
              nk.2 ∈ O) →
          (∀ t ∈ T, SupportsAt ps t) ∧
          (∀ q kids, (q, kids) ∈ Hs → SupportsAt ps q ∧
            Op.copyTree q (normpathStr (pjoin pd q)) kids ∈ O ∧
            ∀ t ∈ T, ¬ strictlyInside q t) := by
        intro T O Hs hT hH hO
        constructor
        · intro t ht
          rcases hT t ht with ⟨nk, hnk, rfl⟩ | ⟨fi, hfi, rfl⟩ | ⟨nk, hnk, htl⟩
          · refine ⟨[nk.1], by simp, ?_, normpath_pjoin_rootOf hps (hwfdir nk hnk)⟩
            intro x hx
            rw [List.mem_singleton.mp hx]
            exact hwfdir nk hnk
          · refine ⟨[fi.1], by simp, ?_, normpath_pjoin_rootOf hps (hwfile fi hfi)⟩
            intro x hx
            rw [List.mem_singleton.mp hx]
            exact hwfile fi hfi
          · exact SupportsAt.up (hwfdir nk (List.mem_of_mem_filter hnk))
              ((hrecfact nk hnk).1 t htl)
        · intro q kids hq
          rcases hH q kids hq with ⟨nk, hnk, hq1, hq2⟩ | ⟨nk, hnk, hql, hOinc⟩
          · subst hq1
            subst hq2
            have hmds := List.mem_of_mem_filter hnk
            have hcwr : cwrB (normpathStr (pjoin (rootOf ps) nk.1)) ctx = true :=
              (List.mem_filter.mp hnk).2
            have hkey := normpath_pjoin_rootOf hps (hwfdir nk hmds)
            refine ⟨⟨[nk.1], by simp, ?_, hkey⟩, hO nk hnk, ?_⟩
            · intro x hx
              rw [List.mem_singleton.mp hx]
              exact hwfdir nk hmds
            · intro t ht
              rcases hT t ht with ⟨nk2, hnk2, rfl⟩ | ⟨fi, hfi, rfl⟩ |
                ⟨nk2, hnk2, htl⟩
              · rw [hkey, normpath_pjoin_rootOf hps (hwfdir nk2 hnk2)]
                exact not_inside_of_longer (by simp) (by simp)
                  (happ nk.1 (hwfdir nk hmds) [] (by simp))
                  (happ nk2.1 (hwfdir nk2 hnk2) [] (by simp)) (by simp)
              · rw [hkey, normpath_pjoin_rootOf hps (hwfile fi hfi)]
                exact not_inside_of_longer (by simp) (by simp)
                  (happ nk.1 (hwfdir nk hmds) [] (by simp))
                  (happ fi.1 (hwfile fi hfi) [] (by simp)) (by simp)
              · intro hin
                rw [hkey] at hin
                obtain ⟨qs2, hqs2ne, hqs2wf, rfl⟩ := (hrecfact nk2 hnk2).1 t htl
                have hassoc : (ps ++ [nk2.1]) ++ qs2 = ps ++ nk2.1 :: qs2 := by
                  simp
                rw [hassoc] at hin
                have hmds2 := List.mem_of_mem_filter hnk2
                have hne : nk.1 = nk2.1 := inside_cons_eq
                  (happ nk.1 (hwfdir nk hmds) [] (by simp))
                  (happ nk2.1 (hwfdir nk2 hmds2) qs2 hqs2wf) hin
                have hcwr2 : (!cwrB (normpathStr (pjoin (rootOf ps) nk2.1)) ctx) =
                    true := (List.mem_filter.mp hnk2).2
                rw [← hne, hcwr] at hcwr2
                simp at hcwr2
          · have hmds := List.mem_of_mem_filter hnk
            obtain ⟨hsup, hopm, hinner⟩ := (hrecfact nk hnk).2 q kids hql
            obtain ⟨qs1, hqs1ne, hqs1wf, hqeq⟩ := hsup
            have hassoc1 : (ps ++ [nk.1]) ++ qs1 = ps ++ nk.1 :: qs1 := by simp
            refine ⟨SupportsAt.up (hwfdir nk hmds) ⟨qs1, hqs1ne, hqs1wf, hqeq⟩,
              hOinc _ hopm, ?_⟩
            intro t ht
            rcases hT t ht with ⟨nk2, hnk2, rfl⟩ | ⟨fi, hfi, rfl⟩ |
              ⟨nk2, hnk2, htl⟩
            · rw [hqeq, hassoc1, normpath_pjoin_rootOf hps (hwfdir nk2 hnk2)]
              refine not_inside_of_longer (by simp) (by simp)
                (happ nk.1 (hwfdir nk hmds) qs1 hqs1wf)
                (happ nk2.1 (hwfdir nk2 hnk2) [] (by simp)) ?_
              simp
            · rw [hqeq, hassoc1, normpath_pjoin_rootOf hps (hwfile fi hfi)]
              refine not_inside_of_longer (by simp) (by simp)
                (happ nk.1 (hwfdir nk hmds) qs1 hqs1wf)
                (happ fi.1 (hwfile fi hfi) [] (by simp)) ?_
              simp
            · intro hin
              obtain ⟨qs2, hqs2ne, hqs2wf, rfl⟩ := (hrecfact nk2 hnk2).1 t htl
              have hmds2 := List.mem_of_mem_filter hnk2
              have hassoc2 : (ps ++ [nk2.1]) ++ qs2 = ps ++ nk2.1 :: qs2 := by
                simp
              rw [hqeq, hassoc1, hassoc2] at hin
              have hne : nk.1 = nk2.1 := inside_cons_eq
                (happ nk.1 (hwfdir nk hmds) qs1 hqs1wf)
                (happ nk2.1 (hwfdir nk2 hmds2) qs2 hqs2wf) hin
              have hkeq : nk.2 = nk2.2 := nodup_keys_eq hnodupR
                (show (nk.1, nk.2) ∈ _ from hnk)
                (show (nk.1, nk2.2) ∈ _ from by rw [hne]; exact hnk2)
              have hnk12 : nk = nk2 := Prod.ext hne hkeq
              rw [← hnk12] at htl
              rw [← hne] at hin
              exact hinner _ htl (by
                rw [hqeq, hassoc1,
                  show (ps ++ [nk.1]) ++ qs2 = ps ++ nk.1 :: qs2 from by simp]
                exact hin)
      cases hmk : (mkdirLoop R ctx od (pjoin pd (rootOf ps))
          ((dirsOf entries).filter
            (fun nk => !cwrB (normpathStr (pjoin (rootOf ps) nk.1)) ctx))).2 with
      | some e =>
        have hwalk := walkEntriesF_eq_mkErr R ctx pd od f (rootOf ps) entries
          ((dirsOf entries).filter
            (fun nk => cwrB (normpathStr (pjoin (rootOf ps) nk.1)) ctx))
          ((dirsOf entries).filter
            (fun nk => !cwrB (normpathStr (pjoin (rootOf ps) nk.1)) ctx))
          e hpart hmk
        rw [hwalk]
        apply main
        · intro t ht
          simp only [List.mem_map] at ht
          obtain ⟨nk, hnk, rfl⟩ := ht
          exact Or.inl ⟨nk, hnk, rfl⟩
        · intro q kids hq
          simp only [List.mem_map] at hq
          obtain ⟨nk, hnk, heq⟩ := hq
          injection heq with h1 h2
          exact Or.inl ⟨nk, hnk, h1.symm, h2.symm⟩
        · intro nk hnk
          simp only [List.mem_append]
          exact Or.inl (List.mem_map.mpr ⟨nk, hnk, rfl⟩)
      | none =>
        cases hfe : (processFiles R ctx pd (rootOf ps) (filesOf entries)).2.2 with
        | some e =>
          have hwalk := walkEntriesF_eq_fileErr R ctx pd od f (rootOf ps) entries
            ((dirsOf entries).filter
              (fun nk => cwrB (normpathStr (pjoin (rootOf ps) nk.1)) ctx))
            ((dirsOf entries).filter
              (fun nk => !cwrB (normpathStr (pjoin (rootOf ps) nk.1)) ctx))
            e hpart hmk hfe
          rw [hwalk]
          apply main
          · intro t ht
            rcases List.mem_append.mp ht with h | h
            · simp only [List.mem_map] at h
              obtain ⟨nk, hnk, rfl⟩ := h
              exact Or.inl ⟨nk, hnk, rfl⟩
            · obtain ⟨fi, hfi, hfeq⟩ := processFiles_tested_mem R ctx pd
                (rootOf ps) (filesOf entries) t h
              exact Or.inr (Or.inl ⟨fi, hfi, hfeq⟩)
          · intro q kids hq
            simp only [List.mem_map] at hq
            obtain ⟨nk, hnk, heq⟩ := hq
            injection heq with h1 h2
            exact Or.inl ⟨nk, hnk, h1.symm, h2.symm⟩
          · intro nk hnk
            simp only [List.mem_append]
            exact Or.inl (Or.inl (List.mem_map.mpr ⟨nk, hnk, rfl⟩))
        | none =>
          have hwalk := walkEntriesF_eq_of_ok R ctx pd od f (rootOf ps) entries
            ((dirsOf entries).filter
              (fun nk => cwrB (normpathStr (pjoin (rootOf ps) nk.1)) ctx))
            ((dirsOf entries).filter
              (fun nk => !cwrB (normpathStr (pjoin (rootOf ps) nk.1)) ctx))
            hpart hmk hfe
          rw [hwalk]
          apply main
          · intro t ht
            rcases List.mem_append.mp ht with h | h
            · rcases List.mem_append.mp h with h2 | h2
              · simp only [List.mem_map] at h2
                obtain ⟨nk, hnk, rfl⟩ := h2
                exact Or.inl ⟨nk, hnk, rfl⟩
              · obtain ⟨fi, hfi, hfeq⟩ := processFiles_tested_mem R ctx pd
                  (rootOf ps) (filesOf entries) t h2
                exact Or.inr (Or.inl ⟨fi, hfi, hfeq⟩)
            · obtain ⟨r, hr, hmem⟩ := seqRes_tested_mem _ t h
              obtain ⟨nk, hnk, rfl⟩ := List.mem_map.mp hr
              exact Or.inr (Or.inr ⟨nk, hnk, hmem⟩)
          · intro q kids hq
            rcases List.mem_append.mp hq with h | h
            · simp only [List.mem_map] at h
              obtain ⟨nk, hnk, heq⟩ := h
              injection heq with h1 h2
              exact Or.inl ⟨nk, hnk, h1.symm, h2.symm⟩
            · obtain ⟨r, hr, hmem, hops⟩ := seqRes_hits_mem _ q kids h
              obtain ⟨nk, hnk, rfl⟩ := List.mem_map.mp hr
              refine Or.inr ⟨nk, hnk, hmem, ?_⟩
              intro op hop
              simp only [List.mem_append]
              exact Or.inr (hops op hop)
          · intro nk hnk
            simp only [List.mem_append]
            exact Or.inl (Or.inl (Or.inl (List.mem_map.mpr ⟨nk, hnk, rfl⟩)))

theorem globMatchF_lit_self : ∀ (l : List Char) (fuel : Nat),
    (∀ c ∈ l, c ≠ '*' ∧ c ≠ '?' ∧ c ≠ '[') → l.length < fuel →
    globMatchF fuel l l = true := by
  intro l
  induction l with
  | nil =>
    intro fuel _ hf
    cases fuel with
    | zero => omega
    | succ f => rfl
  | cons c rest ih =>
    intro fuel h hf
    obtain ⟨h1, h2, h3⟩ := h c (List.mem_cons_self ..)
    cases fuel with
    | zero => omega
    | succ f =>
      rw [globMatchF, if_neg h1, if_neg h2, if_neg h3]
      show ((c == c) && globMatchF f rest rest) = true
      rw [beq_self_eq_true, Bool.true_and]
      exact ih f (fun x hx => h x (List.mem_cons_of_mem _ hx))
        (by simp only [List.length_cons] at hf; omega)

theorem globMatchF_star (lits : List Char)
    (hl : ∀ c ∈ lits, c ≠ '*' ∧ c ≠ '?' ∧ c ≠ '[') :
    ∀ (pre : List Char) (fuel : Nat), pre.length + lits.length + 2 ≤ fuel →
    globMatchF fuel ('*' :: lits) (pre ++ lits) = true := by
  intro pre
  induction pre with
  | nil =>
    intro fuel hf
    cases fuel with
    | zero => omega
    | succ f =>
      cases lits with
      | nil =>
        show (globMatchF f [] [] || false) = true
        rw [globMatchF_lit_self [] f (by simp) (by simp at hf ⊢; omega),
          Bool.true_or]
      | cons l0 ls =>
        show (globMatchF f (l0 :: ls) (l0 :: ls) ||
          globMatchF f ('*' :: l0 :: ls) ls) = true
        rw [globMatchF_lit_self (l0 :: ls) f hl
          (by simp only [List.length_cons] at hf ⊢; omega), Bool.true_or]
  | cons c pre' ih =>
    intro fuel hf
    cases fuel with
    | zero => omega
    | succ f =>
      have hrec := ih f (by simp only [List.length_cons] at hf; omega)
      show (globMatchF f lits (c :: (pre' ++ lits)) ||
        globMatchF f ('*' :: lits) (pre' ++ lits)) = true
      rw [hrec, Bool.or_true]

/-- A `*`-headed literal glob such as `*.bin` matches any string with
that literal suffix — across path separators too. -/
theorem fnmatch_star_bin (s : String) : fnmatchB (s ++ ".bin") "*.bin" = true := by
  rw [fnmatchB, String.data_append]
  rw [show ("*.bin".data) = '*' :: ".bin".data from rfl]
  refine globMatchF_star ".bin".data (by decide) s.data _ ?_
  rw [show ('*' :: ".bin".data).length = 5 from rfl,
    show (".bin".data).length = 4 from rfl, List.length_append,
    show (".bin".data).length = 4 from rfl]
  omega

theorem pathD_no_dotslash {qs : List String} (hne : qs ≠ [])
    (hwf : ∀ x ∈ qs, wfName x) : ¬ (['.', '/'] <+: pathD qs) := by
  intro h
  obtain ⟨q0, rest, rfl⟩ := List.exists_cons_of_ne_nil hne
  obtain ⟨h1, h2, h3, h4⟩ := hwf q0 (List.mem_cons_self ..)
  cases hq : q0.data with
  | nil => exact h1 hq
  | cons c cs =>
    cases rest with
    | nil =>
      rw [show pathD [q0] = q0.data from rfl, hq] at h
      rcases List.cons_prefix_cons.mp h with ⟨hc, h5⟩
      cases cs with
      | nil => exact h3 (by rw [hq, ← hc])
      | cons d ds =>
        have h6 : '/' = d := by simpa using h5
        exact h2 (by rw [hq, ← h6]; simp)
    | cons r1 rs =>
      rw [pathD_cons (by simp), hq] at h
      rcases List.cons_prefix_cons.mp (by simpa using h) with ⟨hc, h5⟩
      cases cs with
      | nil => exact h3 (by rw [hq, ← hc])
      | cons d ds =>
        have h6 : '/' = d := by simpa using h5
        exact h2 (by rw [hq, ← h6]; simp)

/-- C6: every directory the walker finds matching the
copy-without-render policy is copied as one unit — a single `copyTree`
effect carrying its entire subtree, targeted at the (unrendered) path
joined under the project directory — and the walker never descends into
it: no path strictly inside it is ever tested against the policy, and
hence none is individually rendered, since every path the walk processes
individually is tested first. -/
theorem copy_dirs_not_descended (R : RenderFn) (ctx : Ctx) (pd od : String)
    (tree : List Entry) (hctx : ctxCwrOk ctx = true) (hwf : WfForest tree) :
    ∀ q kids, (q, kids) ∈
      (walkEntriesF R ctx pd od (forestSize tree + 1) "." tree).copyHits →
      Op.copyTree q (normpathStr (pjoin pd q)) kids ∈
        (walkEntriesF R ctx pd od (forestSize tree + 1) "." tree).ops ∧
      ∀ t ∈ (walkEntriesF R ctx pd od (forestSize tree + 1) "." tree).tested,
        ¬ strictlyInside q t := by
  intro q kids hq
  have h := (walk_master R hctx pd od (forestSize tree + 1) [] tree hwf
    (fun p hp => absurd hp (List.not_mem_nil p)) (by omega)).2 q kids hq
  exact ⟨h.2.1, h.2.2⟩

/-- C10: every string the walker tests against the policy is the
normalized `/`-joined relative path of a tree node below the template
subtree root, with no leading `./` segment; and because matching is
fnmatch-style, `*` matches across `/`, so a basename-shaped pattern
such as `*.bin` matches a file at any depth of the tree. -/
theorem walker_basis_and_fnmatch_star (R : RenderFn) (ctx : Ctx)
    (pd od : String) (tree : List Entry)
    (hctx : ctxCwrOk ctx = true) (hwf : WfForest tree) :
    (∀ t ∈ (walkEntriesF R ctx pd od (forestSize tree + 1) "." tree).tested,
      (∃ qs, qs ≠ [] ∧ (∀ x ∈ qs, wfName x) ∧ t = pathStr qs) ∧
      ¬ (['.', '/'] <+: t.data)) ∧
    (∀ s : String, fnmatchB (s ++ ".bin") "*.bin" = true) ∧
    fnmatchB "dir/sub/file.bin" "*.bin" = true := by
  refine ⟨?_, fnmatch_star_bin, by decide⟩
  intro t ht
  have h := (walk_master R hctx pd od (forestSize tree + 1) [] tree hwf
    (fun p hp => absurd hp (List.not_mem_nil p)) (by omega)).1 t ht
  obtain ⟨qs, hne, hwfq, rfl⟩ := h
  rw [List.nil_append]
  exact ⟨⟨qs, hne, hwfq, rfl⟩, pathD_no_dotslash hne hwfq⟩

theorem exTree_wf : WfForest exTree := by
  refine WfForest.mk _ (by decide) (by decide) ?_
  intro n kids h
  simp only [exTree, List.mem_cons, List.not_mem_nil, or_false] at h
  rcases h with h | h
  · obtain ⟨rfl, rfl⟩ := Entry.dir.inj h
    refine WfForest.mk _ (by decide) (by decide) ?_
    intro n kids h
    simp at h
  · obtain ⟨rfl, rfl⟩ := Entry.dir.inj h
    refine WfForest.mk _ (by decide) (by decide) ?_
    intro n kids h
    simp at h

theorem copy_dirs_not_descended_witness :
    ctxCwrOk exCtx = true ∧ WfForest exTree ∧
    ∀ q kids, (q, kids) ∈ (walkEntriesF renderTemplate exCtx "/out" "."
        (forestSize exTree + 1) "." exTree).copyHits →
      Op.copyTree q (normpathStr (pjoin "/out" q)) kids ∈
        (walkEntriesF renderTemplate exCtx "/out" "."
          (forestSize exTree + 1) "." exTree).ops ∧
      ∀ t ∈ (walkEntriesF renderTemplate exCtx "/out" "."
          (forestSize exTree + 1) "." exTree).tested,
        ¬ strictlyInside q t :=
  ⟨rfl, exTree_wf,
    copy_dirs_not_descended renderTemplate exCtx "/out" "." exTree rfl exTree_wf⟩

theorem walker_basis_and_fnmatch_star_witness :
    ctxCwrOk exCtx = true ∧ WfForest exTree ∧
    (∀ t ∈ (walkEntriesF renderTemplate exCtx "/out" "."
        (forestSize exTree + 1) "." exTree).tested,
      (∃ qs, qs ≠ [] ∧ (∀ x ∈ qs, wfName x) ∧ t = pathStr qs) ∧
      ¬ (['.', '/'] <+: t.data)) ∧
    fnmatchB ("dir/sub/file" ++ ".bin") "*.bin" = true :=
  ⟨rfl, exTree_wf,
    (walker_basis_and_fnmatch_star renderTemplate exCtx "/out" "." exTree
      rfl exTree_wf).1,
    (walker_basis_and_fnmatch_star renderTemplate exCtx "/out" "." exTree
      rfl exTree_wf).2.1 "dir/sub/file"⟩
